import Mathlib

/-!
Shallow embedding, in Lean 4, of the semantic-version release-management action
(sources: `src/semantic-version.ts`, `src/utils.ts`, `src/constants.ts`,
`src/git.ts`, `src/main.ts` and the test suite).

Conventions used throughout:
* JS strings are `String` / `List Char`; JS `parseInt`, `String.prototype.replace`,
  `split`, `join` and template-string number formatting are embedded as executable
  Lean functions defined below.
* Fallible constructors (`new SemanticVersion(s)` can throw) become `Option`.
* The git store (an external black box in the design) is a first-order structure
  holding commits, tags, branches and an ancestry table; the git queries and
  mutations of `git.ts` are functions over it.
-/

namespace SBR

/-! ### Decimal digit strings

`dval`/`dchar` convert between digit characters and their values; `toNatDigits`
is the value of a big-endian digit string (what `parseInt` computes on an
all-digit string); `decRender` is decimal rendering (what a JS template string
does to a non-negative number). -/

def isDigitC (c : Char) : Bool := 48 ≤ c.toNat && c.toNat ≤ 57

def dval (c : Char) : Nat := c.toNat - 48

def dchar (d : Nat) : Char := Char.ofNat (48 + d)

def toNatDigits (cs : List Char) : Nat := cs.foldl (fun n c => 10 * n + dval c) 0

def decRenderAux : Nat → Nat → List Char
  | 0, _ => []
  | fuel + 1, n => if n = 0 then [] else decRenderAux fuel (n / 10) ++ [dchar (n % 10)]

def decRender (n : Nat) : List Char := if n = 0 then ['0'] else decRenderAux (n + 1) n

def decRenderS (n : Nat) : String := String.mk (decRender n)

/-! ### JS `parseInt` and integer rendering

`parseInt(s)` with no radix argument (ECMAScript): strip leading whitespace,
read an optional sign, honor a `0x`/`0X` prefix as hexadecimal, otherwise use
base 10, then take the longest prefix of digits in the selected base; `NaN`
(here `none`) when that prefix is empty.  So `parseInt("1a") = 1`,
`parseInt("0x1F") = 31` and `parseInt("0xZ")` is `NaN`.  `intRender` is JS
number-to-string for integers. -/

/-- JS whitespace (the `\s` class and the `parseInt`/`trim` trimming),
restricted to ASCII (space, tab, LF, VT, FF, CR). -/
def isJsWS (c : Char) : Bool :=
  c = ' ' || c = '\t' || c = '\n' || c = '\r' || c = '\x0b' || c = '\x0c'

def jsParseIntDigits (cs : List Char) : Option Nat :=
  let ds := cs.takeWhile isDigitC
  if ds.isEmpty then none else some (toNatDigits ds)

def hexDigitVal (c : Char) : Nat :=
  if 97 ≤ c.toNat then c.toNat - 87
  else if 65 ≤ c.toNat then c.toNat - 55
  else c.toNat - 48

def isHexDigitC (c : Char) : Bool :=
  isDigitC c || (65 ≤ c.toNat && c.toNat ≤ 70) || (97 ≤ c.toNat && c.toNat ≤ 102)

def toNatHexDigits (cs : List Char) : Nat := cs.foldl (fun n c => 16 * n + hexDigitVal c) 0

def jsParseIntHexDigits (cs : List Char) : Option Nat :=
  let ds := cs.takeWhile isHexDigitC
  if ds.isEmpty then none else some (toNatHexDigits ds)

/-- The part after sign handling: a `0x`/`0X` prefix selects base 16,
anything else is read in base 10. -/
def jsParseIntBody : List Char → Option Nat
  | [] => none
  | [c] => jsParseIntDigits [c]
  | c0 :: c1 :: rest =>
    if c0 = '0' ∧ (c1 = 'x' ∨ c1 = 'X') then jsParseIntHexDigits rest
    else jsParseIntDigits (c0 :: c1 :: rest)

def jsParseIntL : List Char → Option Int
  | [] => none
  | c :: rest =>
    if c = '-' then (jsParseIntBody rest).map (fun n => -(n : Int))
    else if c = '+' then (jsParseIntBody rest).map (fun n => (n : Int))
    else (jsParseIntBody (c :: rest)).map (fun n => (n : Int))

def jsParseInt (s : String) : Option Int := jsParseIntL (s.toList.dropWhile isJsWS)

def intRender (i : Int) : String :=
  if i < 0 then String.mk ('-' :: decRender i.natAbs) else String.mk (decRender i.toNat)

/-! ### JS `split('.')` / `join('.')` over character lists -/

def splitDot : List Char → List (List Char)
  | [] => [[]]
  | c :: r =>
    if c = '.' then [] :: splitDot r
    else
      match splitDot r with
      | [] => [[c]]
      | h :: t => (c :: h) :: t

def joinDot : List (List Char) → List Char
  | [] => []
  | [x] => x
  | x :: xs => x ++ '.' :: joinDot xs

/-! ### JS `String.prototype.includes` and `replace` (string pattern: first
occurrence only) over character lists -/

def occursL (pat : List Char) : List Char → Bool
  | [] => pat.isEmpty
  | c :: r => pat.isPrefixOf (c :: r) || occursL pat r

def jsReplace (l pat rep : List Char) : List Char :=
  match l with
  | [] => if pat.isEmpty then rep else []
  | c :: r =>
    if pat.isPrefixOf (c :: r) then rep ++ (c :: r).drop pat.length
    else c :: jsReplace r pat rep

def occursStr (s pat : String) : Bool := occursL pat.toList s.toList

/-! ### The semantic version model (`src/semantic-version.ts`)

`SemanticVersion.parse` embeds the constructor: it matches the input against
`SEMANTIC_VERSION_REGEX`
(`^v?(0|[1-9]\d*)\.(0|[1-9]\d*)\.(0|[1-9]\d*)(?:-(prerelease))?(?:\+(build))?$`
with prerelease a dot-separated list of identifiers
`0|[1-9]\d*|\d*[a-zA-Z-][0-9a-zA-Z-]*` and build a dot-separated list of
`[0-9a-zA-Z-]+`), failing (`none`) where the constructor throws.  The regex is
deterministic on this grammar: each numeric group is a maximal digit run (or a
single `0`), the prerelease group runs to the first `+` or the end, so the
match is computed by the straight-line parser below. -/

structure SemanticVersion where
  major : Nat
  minor : Nat
  patch : Nat
  prerelease : Option String := none
deriving DecidableEq, Repr

def isAsciiLetter (c : Char) : Bool :=
  (65 ≤ c.toNat && c.toNat ≤ 90) || (97 ≤ c.toNat && c.toNat ≤ 122)

def isAlnumHyphen (c : Char) : Bool := isDigitC c || isAsciiLetter c || c = '-'

/-- One prerelease identifier: `0|[1-9]\d*|\d*[a-zA-Z-][0-9a-zA-Z-]*`, i.e. a
non-empty `[0-9a-zA-Z-]` string that is either not all digits or has no leading
zero. -/
def validPreId (cs : List Char) : Bool :=
  !cs.isEmpty && cs.all isAlnumHyphen &&
    (!cs.all isDigitC || cs = ['0'] || cs.head? ≠ some '0')

def validPrerelease (cs : List Char) : Bool := (splitDot cs).all validPreId

def validBuildId (cs : List Char) : Bool := !cs.isEmpty && cs.all isAlnumHyphen

def validBuild (cs : List Char) : Bool := (splitDot cs).all validBuildId

/-- `(0|[1-9]\d*)`: a single `0`, or a maximal digit run not starting with `0`;
returns the parsed value and the rest of the input. -/
def parseNumPart : List Char → Option (Nat × List Char)
  | [] => none
  | c :: rest =>
    if c = '0' then some (0, rest)
    else if isDigitC c then
      some (toNatDigits ((c :: rest).takeWhile isDigitC), (c :: rest).dropWhile isDigitC)
    else none

def expectChar (c : Char) : List Char → Option (List Char)
  | x :: r => if x = c then some r else none
  | [] => none

def parseSemVerCore (cs : List Char) : Option SemanticVersion :=
  match parseNumPart cs with
  | none => none
  | some (maj, r1) =>
    match expectChar '.' r1 with
    | none => none
    | some r1b =>
      match parseNumPart r1b with
      | none => none
      | some (minr, r2) =>
        match expectChar '.' r2 with
        | none => none
        | some r2b =>
          match parseNumPart r2b with
          | none => none
          | some (pat, r3) =>
            match r3 with
            | [] => some ⟨maj, minr, pat, none⟩
            | c :: r4 =>
              if c = '-' then
                let pre := r4.takeWhile (fun x => x ≠ '+')
                let r5 := r4.dropWhile (fun x => x ≠ '+')
                if validPrerelease pre then
                  match r5 with
                  | [] => some ⟨maj, minr, pat, some (String.mk pre)⟩
                  | _ :: bld =>
                      if validBuild bld then some ⟨maj, minr, pat, some (String.mk pre)⟩
                      else none
                else none
              else if c = '+' then
                if validBuild r4 then some ⟨maj, minr, pat, none⟩ else none
              else none

/-- The optional leading `v` of the regex. -/
def stripLeadingV (cs : List Char) : List Char :=
  if cs.head? = some 'v' then cs.tail else cs

/-- Embedding of `new SemanticVersion(version)`: the optional leading `v` of
the regex, then the core grammar; `match[4]` (always non-empty when present)
becomes the `prerelease` field. -/
def SemanticVersion.parse (s : String) : Option SemanticVersion :=
  parseSemVerCore (stripLeadingV s.toList)

/-- Embedding of `SemanticVersion.prototype.toString`. -/
def SemanticVersion.toString (v : SemanticVersion) : String :=
  "v" ++ decRenderS v.major ++ "." ++ decRenderS v.minor ++ "." ++ decRenderS v.patch ++
    (match v.prerelease with
     | some p => "-" ++ p
     | none => "")

def SemanticVersion.isPrerelease (v : SemanticVersion) : Bool := v.prerelease.isSome

def SemanticVersion.makeRelease (v : SemanticVersion) : SemanticVersion :=
  { v with prerelease := none }

def SemanticVersion.bumpMajor (v : SemanticVersion) : SemanticVersion :=
  { v with major := v.major + 1, minor := 0, patch := 0, prerelease := some "rc.1" }

def SemanticVersion.bumpMinor (v : SemanticVersion) : SemanticVersion :=
  { v with minor := v.minor + 1, patch := 0, prerelease := some "rc.1" }

/-- Embedding of `bumpPatch`: on a prerelease, `split('.')`, `parseInt` the last
segment (`NaN` is `none`), and either replace it by its successor and
`join('.')`, or append `".1"`. -/
def SemanticVersion.bumpPatch (v : SemanticVersion) : SemanticVersion :=
  match v.prerelease with
  | none => { v with patch := v.patch + 1, prerelease := some "rc.1" }
  | some p =>
    let parts := splitDot p.toList
    let lastPart := parts.getLastD []
    match jsParseInt (String.mk lastPart) with
    | some n =>
        let q := String.mk (joinDot (parts.dropLast ++ [(intRender (n + 1)).toList]))
        { v with prerelease := some q }
    | none => { v with prerelease := some (p ++ ".1") }

/-! ### Facts about the version model used by the claims -/

def coreOf (s : String) : String :=
  String.mk ((stripLeadingV s.toList).takeWhile (fun c => c ≠ '+'))

/-! ### The commit classifier (`src/utils.ts`, `src/constants.ts`)

`CONVENTIONAL_COMMIT_REGEX` is
`^(build|chore|ci|docs|feat|fix|perf|refactor|revert|style|test)(\([\w\-]+\))?(!)?: [^\r\n]+((\s)((\s)[^\r\n]+)+)*(\s)?$`.
Capture group 1 is the type, group 3 the bang, and group 4 — the one inspected
for the breaking-change marker — is a repeated group, so (by JS semantics) it
holds only the text of its LAST repetition: one whitespace character followed
by one or more (whitespace character + non-CRLF line) blocks.  No type name is
a prefix of another, each line run is maximal, and a repetition of group 4
extends exactly until two adjacent CRLF characters or the end, so the
backtracking match is computed by the greedy matcher below. -/

inductive RELEASE_TYPES
  | major | minor | patch | none
deriving DecidableEq, Repr

def isCRLF (c : Char) : Bool := c = '\r' || c = '\n'

/-- JS `\w` (`[A-Za-z0-9_]`). -/
def isWordChar (c : Char) : Bool := isDigitC c || isAsciiLetter c || c = '_'

structure CCMatch where
  ty : String
  scope : Option String := Option.none
  bang : Bool := false
  body : Option String := Option.none
deriving DecidableEq, Repr

def ccTypes : List String :=
  ["build", "chore", "ci", "docs", "feat", "fix", "perf", "refactor", "revert", "style", "test"]

/-- One repetition of `((\s)[^\r\n]+)+` inside group 4: greedy sequence of
(whitespace char + maximal non-CRLF line) pairs; returns the consumed text and
the rest. -/
def ccPairs : Nat → List Char → Option (List Char × List Char)
  | 0, _ => Option.none
  | _ + 1, [] => Option.none
  | _ + 1, [_] => Option.none
  | fuel + 1, w :: c :: rest =>
    if isJsWS w && !isCRLF c then
      let line := (c :: rest).takeWhile (fun x => !isCRLF x)
      let r := (c :: rest).dropWhile (fun x => !isCRLF x)
      match ccPairs fuel r with
      | some (more, r2) => some (w :: line ++ more, r2)
      | Option.none => some (w :: line, r)
    else Option.none

/-- `((\s)(pairs))*(\s)?$`: the trailing part of the message after the subject
line; returns the text of the LAST group-4 repetition (JS capture semantics),
or `none` for the whole match failing. -/
def ccChunks : Nat → List Char → Option (List Char) → Option (Option (List Char))
  | _, [], last => some last
  | _, [w], last => if isJsWS w then some last else Option.none
  | 0, _ :: _ :: _, _ => Option.none
  | fuel + 1, w :: c :: rest, _ =>
    if isJsWS w then
      match ccPairs (rest.length + 2) (c :: rest) with
      | some (consumed, r) => ccChunks fuel r (some (w :: consumed))
      | Option.none => Option.none
    else Option.none

/-- The optional `(\([\w\-]+\))?` scope group. -/
def ccScope (cs1 : List Char) : Option String × List Char :=
  match cs1 with
  | '(' :: r =>
    let sc := r.takeWhile (fun c => isWordChar c || c = '-')
    let r2 := r.dropWhile (fun c => isWordChar c || c = '-')
    (match r2 with
     | ')' :: r3 => if sc.isEmpty then (Option.none, cs1) else (some (String.mk sc), r3)
     | _ => (Option.none, cs1))
  | _ => (Option.none, cs1)

def ccBang (cs2 : List Char) : Bool × List Char :=
  match cs2 with
  | '!' :: r => (true, r)
  | _ => (false, cs2)

/-- `message.match(CONVENTIONAL_COMMIT_REGEX)`: `none` for a non-matching
message, otherwise the capture groups used by the classifier. -/
def matchCC (msg : String) : Option CCMatch :=
  let cs := msg.toList
  match ccTypes.findSome? (fun t => if t.toList.isPrefixOf cs then some t else Option.none) with
  | Option.none => Option.none
  | some t =>
    let cs1 := cs.drop t.length
    let p1 := ccScope cs1
    let p2 := ccBang p1.2
    match p2.2 with
    | ':' :: ' ' :: r =>
      let subj := r.takeWhile (fun c => !isCRLF c)
      let rest := r.dropWhile (fun c => !isCRLF c)
      if subj.isEmpty then Option.none
      else
        match ccChunks (rest.length + 1) rest Option.none with
        | some last => some { ty := t, scope := p1.1, bang := p2.1, body := last.map String.mk }
        | Option.none => Option.none
    | _ => Option.none

/-- Embedding of `parseReleaseTypeFromCommitMessage` (`src/utils.ts`): type
`feat` is minor and `fix` patch, a bang overrides to major, and a group-4 text
containing the literal `"\nBREAKING CHANGE: "` returns major directly.  A
non-matching message degrades to `none` (warning only). -/
def parseReleaseTypeFromCommitMessage (message : String) : RELEASE_TYPES :=
  match matchCC message with
  | Option.none => .none
  | some m =>
    let rt : RELEASE_TYPES :=
      if m.ty = "feat" then .minor else if m.ty = "fix" then .patch else .none
    let rt2 : RELEASE_TYPES := if m.bang then .major else rt
    match m.body with
    | some footer => if occursStr footer "\nBREAKING CHANGE: " then .major else rt2
    | Option.none => rt2

/-- The aggregation loop of `releaseTypeFromCommitMessages`
(`src/semantic-version.ts`), with the running `bumpType` accumulator and the
break on major. -/
def releaseTypeGo : List String → RELEASE_TYPES → RELEASE_TYPES
  | [], bumpType => bumpType
  | message :: rest, bumpType =>
    let releaseType := parseReleaseTypeFromCommitMessage message
    if releaseType = .major then .major
    else if releaseType = .minor ∧ bumpType ≠ .major then releaseTypeGo rest .minor
    else if releaseType = .patch ∧ bumpType ≠ .major ∧ bumpType ≠ .minor then
      releaseTypeGo rest .patch
    else releaseTypeGo rest bumpType

def releaseTypeFromCommitMessages (commitMessages : List String) : RELEASE_TYPES :=
  releaseTypeGo commitMessages .none

def sevRT : RELEASE_TYPES → Nat
  | .major => 3 | .minor => 2 | .patch => 1 | .none => 0

def maxRT (a b : RELEASE_TYPES) : RELEASE_TYPES := if sevRT b ≤ sevRT a then a else b

def listMaxRT (l : List RELEASE_TYPES) : RELEASE_TYPES := l.foldr maxRT .none

/-- Embedding of `isReleaseBranch` (`src/utils.ts`): the configured release
branch regex is modelled as an opaque-to-the-engine classifier function
supplied by the configuration. -/
def isReleaseBranch (branchName : String) (releaseBranchRegex : String → Bool) : Bool :=
  releaseBranchRegex branchName

/-- Embedding of `generateReleaseBranchName` (`src/utils.ts`): four chained
JS `replace` calls (first occurrence only), with an absent prerelease read as
the empty string. -/
def generateReleaseBranchName (template : String) (version : SemanticVersion) : String :=
  let s1 := String.mk (jsReplace template.toList "$\x7bmajor\x7d".toList (decRender version.major))
  let s2 := String.mk (jsReplace s1.toList "$\x7bminor\x7d".toList (decRender version.minor))
  let s3 := String.mk (jsReplace s2.toList "$\x7bpatch\x7d".toList (decRender version.patch))
  String.mk
    (jsReplace s3.toList "$\x7bprerelease\x7d".toList (version.prerelease.getD "").toList)

/-! ### Claims about the classifier and aggregation -/

def markerInBody : Option String → Bool
  | some footer => occursStr footer "\nBREAKING CHANGE: "
  | Option.none => false

/-! ### The git store model

The store is the external black box of the design (spec §1): commits carrying
messages, lightweight tags and branches bound to commits, a current branch and
HEAD, and an ancestry table (`ancestry c` lists the commits reachable from `c`,
itself included, in log order).  The queries and mutations of `src/git.ts` are
functions over it.  `git tag --sort v:refname` (with
`versionsort.suffix=-`) is modelled as an insertion sort under semver
precedence for parseable tags and code-point order otherwise. -/

structure Repo where
  commits : List (Nat × String)
  ancestry : List (Nat × List Nat)
  tags : List (String × Nat)
  branches : List (String × Nat)
  currentBranch : String
  headCommit : Nat
  firstCommit : Nat
deriving DecidableEq, Repr

def alookup {α β : Type} [DecidableEq α] : List (α × β) → α → Option β
  | [], _ => Option.none
  | (k, v) :: r, a => if a = k then some v else alookup r a

def ancestorsOf (r : Repo) (c : Nat) : List Nat := (alookup r.ancestry c).getD []

/-- `git rev-parse` resolution order: HEAD, then tags, then branches. -/
def resolveRef (r : Repo) (ref : String) : Option Nat :=
  if ref = "HEAD" then some r.headCommit
  else
    match alookup r.tags ref with
    | some c => some c
    | Option.none => alookup r.branches ref

def cmpNat (a b : Nat) : Ordering := if a < b then .lt else if b < a then .gt else .eq

def cmpListChar : List Char → List Char → Ordering
  | [], [] => .eq
  | [], _ :: _ => .lt
  | _ :: _, [] => .gt
  | a :: xs, b :: ys => (cmpNat a.toNat b.toNat).then (cmpListChar xs ys)

def isNumericId (cs : List Char) : Bool := !cs.isEmpty && cs.all isDigitC

/-- Semver identifier precedence: numeric identifiers numerically and below
alphanumeric ones, alphanumeric ones in code-point order. -/
def cmpId (a b : List Char) : Ordering :=
  if isNumericId a then
    if isNumericId b then cmpNat (toNatDigits a) (toNatDigits b) else .lt
  else if isNumericId b then .gt
  else cmpListChar a b

def cmpIds : List (List Char) → List (List Char) → Ordering
  | [], [] => .eq
  | [], _ :: _ => .lt
  | _ :: _, [] => .gt
  | a :: xs, b :: ys => (cmpId a b).then (cmpIds xs ys)

def cmpPrerelease : Option String → Option String → Ordering
  | Option.none, Option.none => .eq
  | Option.none, some _ => .gt
  | some _, Option.none => .lt
  | some p, some q => cmpIds (splitDot p.toList) (splitDot q.toList)

def cmpVer (a b : SemanticVersion) : Ordering :=
  (cmpNat a.major b.major).then ((cmpNat a.minor b.minor).then
    ((cmpNat a.patch b.patch).then (cmpPrerelease a.prerelease b.prerelease)))

def tagLe (t1 t2 : String) : Bool :=
  match SemanticVersion.parse t1, SemanticVersion.parse t2 with
  | some a, some b => cmpVer a b ≠ .gt
  | _, _ => cmpListChar t1.toList t2.toList ≠ .gt

def insertSorted (le : String → String → Bool) (a : String) : List String → List String
  | [] => [a]
  | b :: r => if le a b then a :: b :: r else b :: insertSorted le a r

def sortTags (l : List String) : List String := l.foldr (insertSorted tagLe) []

def strLe (a b : String) : Bool := cmpListChar a.toList b.toList ≠ .gt

def sortStrings (l : List String) : List String := l.foldr (insertSorted strLe) []

def isPrereleaseTagB (t : String) : Bool :=
  match SemanticVersion.parse t with
  | some v => v.isPrerelease
  | Option.none => false

def isStableTagB (t : String) : Bool :=
  match SemanticVersion.parse t with
  | some v => !v.isPrerelease
  | Option.none => false

/-- `getTags` (`src/git.ts`): `git tag --merged ref --sort v:refname` — the
tags bound to ancestors of `ref`, version sorted. -/
def getTags (r : Repo) (ref : String) : List String :=
  match resolveRef r ref with
  | Option.none => []
  | some c =>
      sortTags ((r.tags.filter (fun tc => (ancestorsOf r c).contains tc.2)).map Prod.fst)

/-- `getLatestTag` (`src/git.ts`): last element of `getTags`, or empty. -/
def getLatestTag (r : Repo) (ref : String) : String := (getTags r ref).getLastD ""

/-- `getLatestStableTag` (`src/git.ts` lines 38-48).  Note: the function takes
NO scope parameter — it sorts and filters ALL tags of the repository; the
extra branch argument passed at both call sites in `main.ts` is silently
ignored (JS).  The ancestry-scoped query the spec describes (and the test
suite asserts) is `getLatestStableTagScoped` below. -/
def getLatestStableTag (r : Repo) : String :=
  ((sortTags (r.tags.map Prod.fst)).filter isStableTagB).getLastD ""

/-- Modelled from the spec: `getLatestStableTag(scope)` as §4.3 words it —
"version-maximal tag, among those that parse as semantic versions and are not
prereleases, restricted to the given scope's ancestry; empty if none".  This
is the behavior the repository's own test suite asserts
(`__tests__`, "should return latest stable tag reachable from older branch");
the implementation in `src/git.ts` ignores the scope. -/
def getLatestStableTagScoped (r : Repo) (scope : String) : String :=
  ((getTags r scope).filter isStableTagB).getLastD ""

/-- `getTagsAtHEAD` (`git tag --points-at HEAD`, default refname order). -/
def getTagsAtHEAD (r : Repo) : List String :=
  sortStrings ((r.tags.filter (fun tc => tc.2 == r.headCommit)).map Prod.fst)

/-- `getCommitMessages` (`git log from..to`): messages of commits reachable
from `to` but not from `from`, in ancestry-table order. -/
def getCommitMessages (r : Repo) (cFrom cTo : Nat) : List String :=
  ((ancestorsOf r cTo).filter (fun cx => !(ancestorsOf r cFrom).contains cx)).filterMap
    (fun cx => alookup r.commits cx)

/-! ### The release engine (`src/main.ts`)

Errors carry exactly the values the thrown messages interpolate.  The publish
step (`gitSync`) pushes to the remote and changes nothing locally; it is
modelled as a no-op, so `dry-run` does not affect the modelled state. -/

inductive RunError where
  | unsupportedAction (action : String)
  | notReleaseBranch (branch : String)
  | emptyHead
  | noCandidateAtHead
  | ambiguousCandidates (tags : List String)
  | alreadyReleased (tags : List String)
  | invalidVersion (s : String)
  | refNotFound (ref : String)
  | branchNotTrunkOrRelease (branch : String) (trunk : String)
  | noCommitsSinceTag (tag : String)
  | noCommitsAtAll
  | noQualifyingChange (latestTag : String)
  | patchOnTrunk (trunk : String)
  | minorOffTrunk (trunk : String)
  | majorOffTrunk (trunk : String)
  | branchExists (name : String)
  | tagExists (name : String)
deriving DecidableEq, Repr

structure Config where
  action : String
  trunkBranchName : String
  releaseBranchRegex : String → Bool
  releaseBranchStringTemplate : String
  dryRun : Bool

structure Outputs where
  nextVersion : String
  previousVersion : String
  previousStableVersion : String
deriving DecidableEq, Repr

deriving instance DecidableEq for Except

/-- `git tag [name]` at HEAD: fails when the tag already exists. -/
def gitTag (r : Repo) (name : String) : Repo × Except RunError Unit :=
  if (alookup r.tags name).isSome then (r, .error (.tagExists name))
  else ({ r with tags := r.tags ++ [(name, r.headCommit)] }, .ok ())

/-- `git checkout tagname`: detach HEAD at the tag's commit. -/
def gitCheckoutTag (r : Repo) (name : String) : Repo × Except RunError Unit :=
  match alookup r.tags name with
  | some c => ({ r with headCommit := c }, .ok ())
  | Option.none => (r, .error (.refNotFound name))

/-- `makeRelease` (`src/git.ts` lines 126-129): check out the candidate tag,
then tag that same commit with the release tag. -/
def makeRelease (r : Repo) (targetTag releaseTag : String) : Repo × Except RunError Unit :=
  match gitCheckoutTag r targetTag with
  | (r1, .ok _) => gitTag r1 releaseTag
  | (r1, .error e) => (r1, .error e)

/-- Modelled from the spec: `cutReleaseFromTrunk` is imported by `main.ts` but
its module is absent from `src/`; per spec §4.4 step 6 (and its one-step-older
form `cutReleaseBranch` in `src/git.ts`): fail ConflictError if the branch
name already exists, else create it from current HEAD, make it the active
branch, and tag that commit with the rc tag. -/
def cutReleaseFromTrunk (r : Repo) (ref branchName tag : String) :
    Repo × Except RunError Unit :=
  let _ := ref
  if (alookup r.branches branchName).isSome then (r, .error (.branchExists branchName))
  else
    gitTag { r with branches := r.branches ++ [(branchName, r.headCommit)],
                    currentBranch := branchName } tag

/-- Modelled from the spec: `cutReleaseFromReleaseBranch` is imported by
`main.ts` but its module is absent from `src/`; per spec §4.4 step 6: tag
current HEAD in place; no branch is created. -/
def cutReleaseFromReleaseBranch (r : Repo) (branch tag : String) :
    Repo × Except RunError Unit :=
  let _ := branch
  gitTag r tag

/-- The `release` action of `run` (`src/main.ts` lines 47-124). -/
def runRelease (cfg : Config) (r : Repo) : Repo × Except RunError Outputs :=
  let currentBranch := r.currentBranch
  if !(isReleaseBranch currentBranch cfg.releaseBranchRegex) then
    (r, .error (.notReleaseBranch currentBranch))
  else
    let tagsAtHEAD := getTagsAtHEAD r
    if tagsAtHEAD.isEmpty then (r, .error .emptyHead)
    else
      let numReleaseCandidatesAtHEAD := (tagsAtHEAD.filter isPrereleaseTagB).length
      if numReleaseCandidatesAtHEAD = 0 then (r, .error .noCandidateAtHead)
      else if numReleaseCandidatesAtHEAD > 1 then
        (r, .error (.ambiguousCandidates tagsAtHEAD))
      else
        let numReleasesAtHEAD := (tagsAtHEAD.filter isStableTagB).length
        if numReleasesAtHEAD > 0 then (r, .error (.alreadyReleased tagsAtHEAD))
        else
          match (tagsAtHEAD.filter isPrereleaseTagB).head? with
          | Option.none => (r, .error (.invalidVersion "undefined"))
          | some t0 =>
            match SemanticVersion.parse t0 with
            | Option.none => (r, .error (.invalidVersion t0))
            | some version =>
              let previousVersion := version.toString
              let previousStableVersion := getLatestStableTag r
              let version2 := version.makeRelease
              match makeRelease r t0 version2.toString with
              | (r1, .error e) => (r1, .error e)
              | (r1, .ok _) =>
                  (r1, .ok { nextVersion := version2.toString,
                             previousVersion := previousVersion,
                             previousStableVersion := previousStableVersion })

/-- `release-cut` reference stage (`src/main.ts` lines 152-179): the latest
tag reachable from the current branch is the reference; without one, version
`v0.0.0` is synthesized and history starts at the repository's first commit.
Returns the reference version, the collected messages and `previousVersion`. -/
def releaseCutReference (r : Repo) : Except RunError (SemanticVersion × List String × String) :=
  let latestTag := getLatestTag r r.currentBranch
  if latestTag ≠ "" then
    match SemanticVersion.parse latestTag with
    | Option.none => .error (.invalidVersion latestTag)
    | some version =>
      match resolveRef r latestTag with
      | Option.none => .error (.refNotFound latestTag)
      | some cFrom =>
        let commitMessages := getCommitMessages r cFrom r.headCommit
        if commitMessages.isEmpty then .error (.noCommitsSinceTag latestTag)
        else .ok (version, commitMessages, version.toString)
  else
    let commitMessages := getCommitMessages r r.firstCommit r.headCommit
    if commitMessages.isEmpty then .error .noCommitsAtAll
    else .ok (⟨0, 0, 0, Option.none⟩, commitMessages, "")

/-- `release-cut` qualification and placement stage (`src/main.ts` lines
184-217): none is rejected; patch is rejected on trunk; minor and major are
rejected off trunk; otherwise the matching bump is applied. -/
def releaseCutBump (cfg : Config) (currentBranch latestTag : String)
    (version : SemanticVersion) (releaseType : RELEASE_TYPES) :
    Except RunError SemanticVersion :=
  match releaseType with
  | .none => .error (.noQualifyingChange latestTag)
  | .patch =>
      if currentBranch = cfg.trunkBranchName then .error (.patchOnTrunk cfg.trunkBranchName)
      else .ok version.bumpPatch
  | .minor =>
      if currentBranch ≠ cfg.trunkBranchName then .error (.minorOffTrunk cfg.trunkBranchName)
      else .ok version.bumpMinor
  | .major =>
      if currentBranch ≠ cfg.trunkBranchName then .error (.majorOffTrunk cfg.trunkBranchName)
      else .ok version.bumpMajor

/-- The `release-cut` action of `run` (`src/main.ts` lines 127-228). -/
def runReleaseCut (cfg : Config) (r : Repo) : Repo × Except RunError Outputs :=
  let currentBranch := r.currentBranch
  if currentBranch ≠ cfg.trunkBranchName ∧
      !(isReleaseBranch currentBranch cfg.releaseBranchRegex) then
    (r, .error (.branchNotTrunkOrRelease currentBranch cfg.trunkBranchName))
  else
    let branchType := if currentBranch = cfg.trunkBranchName then "trunk"
      else if isReleaseBranch currentBranch cfg.releaseBranchRegex then "release" else ""
    let latestTag := getLatestTag r r.currentBranch
    match releaseCutReference r with
    | .error e => (r, .error e)
    | .ok (version, commitMessages, previousVersion) =>
      let previousStableVersion := getLatestStableTag r
      let releaseType := releaseTypeFromCommitMessages commitMessages
      match releaseCutBump cfg currentBranch latestTag version releaseType with
      | .error e => (r, .error e)
      | .ok version2 =>
        let step : Repo × Except RunError Unit :=
          if branchType = "trunk" then
            cutReleaseFromTrunk r currentBranch
              (generateReleaseBranchName cfg.releaseBranchStringTemplate version2)
              version2.toString
          else if branchType = "release" then
            cutReleaseFromReleaseBranch r currentBranch version2.toString
          else (r, .ok ())
        match step with
        | (r1, .error e) => (r1, .error e)
        | (r1, .ok _) =>
            (r1, .ok { nextVersion := version2.toString,
                       previousVersion := previousVersion,
                       previousStableVersion := previousStableVersion })

/-- `run` (`src/main.ts`): validate the action, then dispatch. -/
def run (cfg : Config) (r : Repo) : Repo × Except RunError Outputs :=
  if cfg.action ≠ "release" ∧ cfg.action ≠ "release-cut" then
    (r, .error (.unsupportedAction cfg.action))
  else if cfg.action = "release" then runRelease cfg r
  else runReleaseCut cfg r

/-! ### Concrete stores and configurations used by the witnesses and
counterexamples -/

def sampleRegex : String → Bool :=
  fun s => s = "release-1.0.x" || s = "release-1.1.x" || s = "release-2.0.x"

def cfgRelease : Config :=
  { action := "release", trunkBranchName := "main", releaseBranchRegex := sampleRegex,
    releaseBranchStringTemplate := "release-$\x7bmajor\x7d.$\x7bminor\x7d.x",
    dryRun := false }

def cfgReleaseCut : Config := { cfgRelease with action := "release-cut" }

/-- The topology of the test-suite case "should return latest stable tag
reachable from older branch": stable `v1.0.0` on `release-1.0.x`, stable
`v1.1.0` on the unrelated `release-1.1.x`. -/
def repoTwoReleaseLines : Repo :=
  { commits := [(0, "Initial commit"), (1, "Release v1.0.0-rc.2"), (2, "v1.0.1-rc.1"),
      (3, "Update to v1.1.0-rc.1"), (4, "Release v1.1.0-rc.2")]
    ancestry := [(0, [0]), (1, [0, 1]), (2, [0, 1, 2]), (3, [0, 3]), (4, [0, 3, 4])]
    tags := [("v1.0.0-rc.1", 0), ("v1.0.0-rc.2", 1), ("v1.0.0", 1), ("v1.0.1-rc.1", 2),
      ("v1.1.0-rc.2", 4), ("v1.1.0", 4)]
    branches := [("main", 3), ("release-1.0.x", 2), ("release-1.1.x", 4)]
    currentBranch := "release-1.0.x", headCommit := 2, firstCommit := 0 }

/-- A release branch with exactly one candidate tag at HEAD. -/
def repoReleaseOK : Repo :=
  { commits := [(0, "Initial commit"), (1, "fix: y")]
    ancestry := [(0, [0]), (1, [0, 1])]
    tags := [("v1.0.0", 0), ("v1.0.1-rc.1", 1)]
    branches := [("main", 0), ("release-1.0.x", 1)]
    currentBranch := "release-1.0.x", headCommit := 1, firstCommit := 0 }

/-- A release branch whose sole candidate tag at HEAD is not `v`-prefixed. -/
def repoUnprefixed : Repo :=
  { commits := [(0, "Initial commit"), (1, "fix: y")]
    ancestry := [(0, [0]), (1, [0, 1])]
    tags := [("1.0.1-rc.1", 1)]
    branches := [("main", 0), ("release-1.0.x", 1)]
    currentBranch := "release-1.0.x", headCommit := 1, firstCommit := 0 }

/-- A release branch whose HEAD carries a stable tag and no candidate. -/
def repoStableOnly : Repo :=
  { commits := [(0, "Initial commit")]
    ancestry := [(0, [0])]
    tags := [("v1.0.0", 0)]
    branches := [("release-1.0.x", 0)]
    currentBranch := "release-1.0.x", headCommit := 0, firstCommit := 0 }

/-- A release branch with two candidate tags at HEAD. -/
def repoTwoCandidates : Repo :=
  { commits := [(0, "Initial commit")]
    ancestry := [(0, [0])]
    tags := [("v1.0.1-rc.1", 0), ("v1.0.1-rc.2", 0)]
    branches := [("release-1.0.x", 0)]
    currentBranch := "release-1.0.x", headCommit := 0, firstCommit := 0 }

/-- A release branch with one candidate and one stable tag at HEAD. -/
def repoCandidateAndStable : Repo :=
  { commits := [(0, "Initial commit")]
    ancestry := [(0, [0])]
    tags := [("v1.0.1-rc.1", 0), ("v1.0.1", 0)]
    branches := [("release-1.0.x", 0)]
    currentBranch := "release-1.0.x", headCommit := 0, firstCommit := 0 }

/-- A release branch with no tag at all at HEAD. -/
def repoBareHead : Repo :=
  { commits := [(0, "Initial commit")]
    ancestry := [(0, [0])]
    tags := []
    branches := [("release-1.0.x", 0)]
    currentBranch := "release-1.0.x", headCommit := 0, firstCommit := 0 }

/-- Trunk with a patch-only change since the last tag. -/
def repoTrunkPatch : Repo :=
  { commits := [(0, "Initial commit"), (1, "fix: bug")]
    ancestry := [(0, [0]), (1, [0, 1])]
    tags := [("v1.0.0", 0)]
    branches := [("main", 1)]
    currentBranch := "main", headCommit := 1, firstCommit := 0 }

/-- A release branch with a minor change since the last tag. -/
def repoRelMinor : Repo :=
  { commits := [(0, "Initial commit"), (1, "feat: x")]
    ancestry := [(0, [0]), (1, [0, 1])]
    tags := [("v1.0.0", 0)]
    branches := [("main", 0), ("release-1.0.x", 1)]
    currentBranch := "release-1.0.x", headCommit := 1, firstCommit := 0 }

/-- A release branch with a major change since the last tag. -/
def repoRelMajor : Repo :=
  { commits := [(0, "Initial commit"), (1, "feat!: x")]
    ancestry := [(0, [0]), (1, [0, 1])]
    tags := [("v1.0.0", 0)]
    branches := [("main", 0), ("release-1.0.x", 1)]
    currentBranch := "release-1.0.x", headCommit := 1, firstCommit := 0 }

/-- Trunk with commits but no tag anywhere. -/
def repoNoTags : Repo :=
  { commits := [(0, "Initial commit"), (1, "feat: first")]
    ancestry := [(0, [0]), (1, [0, 1])]
    tags := []
    branches := [("main", 1)]
    currentBranch := "main", headCommit := 1, firstCommit := 0 }

/-- Trunk whose latest tag sits exactly at HEAD (no commits since). -/
def repoNoCommits : Repo :=
  { commits := [(0, "Initial commit")]
    ancestry := [(0, [0])]
    tags := [("v1.0.0", 0)]
    branches := [("main", 0)]
    currentBranch := "main", headCommit := 0, firstCommit := 0 }

/-- Trunk with a single commit and no tags: the only commit is the history
start, so the collected list is empty. -/
def repoEmptyHistory : Repo :=
  { commits := [(0, "Initial commit")]
    ancestry := [(0, [0])]
    tags := []
    branches := [("main", 0)]
    currentBranch := "main", headCommit := 0, firstCommit := 0 }

/-! ### Structural lemmas on the store model -/

/-! ### Dispatch lemmas for `run` -/

/-! ### Claim C1 -/

/-! ### Claim C2 -/

/-! ### Claim C3 -/

/-! ### Claim C4 -/

def repoReleaseOK2 : Repo :=
  { repoReleaseOK with tags := repoReleaseOK.tags ++ [("v1.0.1", 1)] }

def outsReleaseOK : Outputs := ⟨"v1.0.1", "v1.0.1-rc.1", "v1.0.0"⟩

/-! ### Claim C5 -/

def repoTrunkMinorTagged : Repo :=
  { commits := [(0, "Initial commit"), (1, "feat: x")]
    ancestry := [(0, [0]), (1, [0, 1])]
    tags := [("v1.0.0", 0)]
    branches := [("main", 1)]
    currentBranch := "main", headCommit := 1, firstCommit := 0 }

def repoNoTags2 : Repo :=
  { repoNoTags with
    branches := repoNoTags.branches ++ [("release-0.1.x", 1)]
    currentBranch := "release-0.1.x"
    tags := [("v0.1.0-rc.1", 1)] }

def outsNoTags : Outputs := ⟨"v0.1.0-rc.1", "", ""⟩

def repoTrunkMinorTagged2 : Repo :=
  { repoTrunkMinorTagged with
    branches := repoTrunkMinorTagged.branches ++ [("release-1.1.x", 1)]
    currentBranch := "release-1.1.x"
    tags := repoTrunkMinorTagged.tags ++ [("v1.1.0-rc.1", 1)] }

def outsTrunkMinorTagged : Outputs := ⟨"v1.1.0-rc.1", "v1.0.0", "v1.0.0"⟩

/-! ### Theorems -/

theorem dchar_dval {c : Char} (h : isDigitC c = true) : dchar (dval c) = c := by
  have h48 : 48 ≤ c.toNat := by
    have := of_decide_eq_true (Bool.and_elim_left h)
    exact this
  have : 48 + (c.toNat - 48) = c.toNat := by omega
  simp only [dchar, dval, this, Char.ofNat_toNat]

theorem dval_lt_ten {c : Char} (h : isDigitC c = true) : dval c < 10 := by
  have h57 : c.toNat ≤ 57 := of_decide_eq_true (Bool.and_elim_right h)
  simp only [dval]; omega

theorem dval_dchar {d : Nat} (h : d < 10) : dval (dchar d) = d := by
  interval_cases d <;> decide

theorem isDigitC_dchar {d : Nat} (h : d < 10) : isDigitC (dchar d) = true := by
  interval_cases d <;> decide

theorem toNatDigits_eq_ofDigits (cs : List Char) :
    toNatDigits cs = Nat.ofDigits 10 ((cs.map dval).reverse) := by
  induction cs using List.reverseRecOn with
  | nil => simp [toNatDigits, Nat.ofDigits]
  | append_singleton ds c ih =>
      simp only [toNatDigits, List.foldl_append, List.foldl_cons, List.foldl_nil,
        List.map_append, List.reverse_append, List.map_cons, List.map_nil,
        List.reverse_cons, List.reverse_nil, List.nil_append, List.singleton_append,
        Nat.ofDigits_cons]
      rw [← toNatDigits, ih]
      ring

theorem decRenderAux_eq (fuel : Nat) :
    ∀ n : Nat, n < fuel → decRenderAux fuel n = ((Nat.digits 10 n).map dchar).reverse := by
  induction fuel with
  | zero => intro n h; omega
  | succ fuel ih =>
      intro n h
      by_cases h0 : n = 0
      · subst h0; simp [decRenderAux]
      · have hdig : Nat.digits 10 n = n % 10 :: Nat.digits 10 (n / 10) :=
          Nat.digits_def' (by norm_num) (Nat.pos_of_ne_zero h0)
        have hlt : n / 10 < fuel := by
          have := Nat.div_lt_self (Nat.pos_of_ne_zero h0) (by norm_num : 1 < 10)
          omega
        simp only [decRenderAux, h0, if_false, ih (n / 10) hlt, hdig, List.map_cons,
          List.reverse_cons]

theorem decRender_eq {n : Nat} (h : n ≠ 0) :
    decRender n = ((Nat.digits 10 n).map dchar).reverse := by
  simp only [decRender, h, if_false]
  exact decRenderAux_eq (n + 1) n (Nat.lt_succ_self n)

theorem map_eq_self {α : Type} {f : α → α} {l : List α} (h : ∀ x ∈ l, f x = x) :
    l.map f = l := by
  induction l with
  | nil => rfl
  | cons a l ih =>
      simp only [List.map_cons, h a (List.mem_cons_self a l), List.cons.injEq, true_and]
      exact ih fun x hx => h x (List.mem_cons_of_mem a hx)

theorem toNatDigits_decRender (n : Nat) : toNatDigits (decRender n) = n := by
  by_cases h0 : n = 0
  · subst h0; decide
  · rw [decRender_eq h0, toNatDigits_eq_ofDigits, List.map_reverse, List.reverse_reverse,
      List.map_map]
    have : (Nat.digits 10 n).map (dval ∘ dchar) = Nat.digits 10 n := by
      apply map_eq_self
      intro d hd
      exact dval_dchar (Nat.digits_lt_base (by norm_num) hd)
    rw [this, Nat.ofDigits_digits]

theorem decRender_all_digits (n : Nat) : ∀ c ∈ decRender n, isDigitC c = true := by
  by_cases h0 : n = 0
  · subst h0; decide
  · rw [decRender_eq h0]
    intro c hc
    rw [List.mem_reverse, List.mem_map] at hc
    obtain ⟨d, hd, rfl⟩ := hc
    exact isDigitC_dchar (Nat.digits_lt_base (by norm_num) hd)

theorem decRender_ne_nil (n : Nat) : decRender n ≠ [] := by
  by_cases h0 : n = 0
  · subst h0; decide
  · rw [decRender_eq h0]
    simp only [ne_eq, List.reverse_eq_nil_iff, List.map_eq_nil_iff]
    exact Nat.digits_ne_nil_iff_ne_zero.mpr h0

/-- The round-trip used by the version-string round-trip theorem: rendering the
value of a canonical digit string gives back the string. -/
theorem decRender_toNatDigits {cs : List Char} (hne : cs ≠ [])
    (hdig : ∀ c ∈ cs, isDigitC c = true)
    (hcanon : cs = ['0'] ∨ cs.head? ≠ some '0') :
    decRender (toNatDigits cs) = cs := by
  rcases hcanon with h0 | hh
  · subst h0; decide
  · obtain ⟨c, cs2, rfl⟩ := List.exists_cons_of_ne_nil hne
    have hc : isDigitC c = true := hdig c (List.mem_cons_self c cs2)
    have hcne : c ≠ '0' := by
      intro h; exact hh (by simp [h])
    have hdvc : dval c ≠ 0 := by
      intro h
      apply hcne
      have := dchar_dval hc
      rw [h] at this
      simpa [dchar] using this.symm
    have hofd := toNatDigits_eq_ofDigits (c :: cs2)
    set L : List Nat := ((c :: cs2).map dval).reverse with hL
    have hlast : ∀ h : L ≠ [], L.getLast h ≠ 0 := by
      intro h
      have h2 : L.getLast? = some (dval c) := by
        rw [hL, List.getLast?_reverse]
        simp
      rw [List.getLast?_eq_getLast L h] at h2
      intro hcon
      rw [hcon] at h2
      exact hdvc (Option.some.inj h2).symm
    have hwf : ∀ l ∈ L, l < 10 := by
      intro l hl
      rw [hL, List.mem_reverse, List.mem_map] at hl
      obtain ⟨x, hx, rfl⟩ := hl
      exact dval_lt_ten (hdig x hx)
    have hdigits : Nat.digits 10 (toNatDigits (c :: cs2)) = L := by
      rw [hofd]; exact Nat.digits_ofDigits 10 (by norm_num) L hwf hlast
    have hn0 : toNatDigits (c :: cs2) ≠ 0 := by
      intro h
      rw [h] at hdigits
      simp [hL] at hdigits
    rw [decRender_eq hn0, hdigits, hL, List.map_reverse, List.reverse_reverse, List.map_map]
    apply map_eq_self
    intro x hx
    exact dchar_dval (hdig x hx)

theorem takeWhile_all {p : Char → Bool} {l : List Char} (h : ∀ c ∈ l, p c = true) :
    l.takeWhile p = l := by
  induction l with
  | nil => rfl
  | cons a l ih =>
      rw [List.takeWhile_cons, if_pos (h a (List.mem_cons_self a l))]
      rw [ih fun c hc => h c (List.mem_cons_of_mem a hc)]

theorem takeWhile_append_all {p : Char → Bool} {a b : List Char}
    (h : ∀ c ∈ a, p c = true) : (a ++ b).takeWhile p = a ++ b.takeWhile p := by
  induction a with
  | nil => rfl
  | cons x a ih =>
      rw [List.cons_append, List.takeWhile_cons, if_pos (h x (List.mem_cons_self x a))]
      rw [ih fun c hc => h c (List.mem_cons_of_mem x hc)]
      rfl

theorem dropWhile_append_all {p : Char → Bool} {a b : List Char}
    (h : ∀ c ∈ a, p c = true) : (a ++ b).dropWhile p = b.dropWhile p := by
  induction a with
  | nil => rfl
  | cons x a ih =>
      rw [List.cons_append, List.dropWhile_cons, if_pos (h x (List.mem_cons_self x a))]
      exact ih fun c hc => h c (List.mem_cons_of_mem x hc)

theorem splitDot_ne_nil (cs : List Char) : splitDot cs ≠ [] := by
  induction cs with
  | nil => simp [splitDot]
  | cons c r ih =>
      simp only [splitDot]
      by_cases h : c = '.'
      · simp [h]
      · simp only [h, if_false]
        cases hs : splitDot r with
        | nil => simp
        | cons x xs => simp

theorem splitDot_no_dot {cs : List Char} (h : ∀ c ∈ cs, c ≠ '.') : splitDot cs = [cs] := by
  induction cs with
  | nil => rfl
  | cons c r ih =>
      simp only [splitDot, h c (List.mem_cons_self c r), if_false]
      rw [ih fun x hx => h x (List.mem_cons_of_mem c hx)]

theorem splitDot_append_no_dot {a b : List Char} (h : ∀ c ∈ a, c ≠ '.') :
    splitDot (a ++ '.' :: b) = a :: splitDot b := by
  induction a with
  | nil => simp [splitDot]
  | cons c r ih =>
      rw [List.cons_append]
      simp only [splitDot, h c (List.mem_cons_self c r), if_false]
      rw [ih fun x hx => h x (List.mem_cons_of_mem c hx)]

theorem occursL_iff {pat l : List Char} :
    occursL pat l = true ↔ ∃ s t, l = s ++ pat ++ t := by
  induction l with
  | nil =>
      simp only [occursL, List.isEmpty_iff]
      constructor
      · rintro rfl; exact ⟨[], [], rfl⟩
      · rintro ⟨s, t, h⟩
        rcases List.append_eq_nil.mp h.symm with ⟨h1, h2⟩
        exact (List.append_eq_nil.mp h1).2
  | cons c r ih =>
      simp only [occursL, Bool.or_eq_true, List.isPrefixOf_iff_prefix, ih]
      constructor
      · rintro (⟨t, ht⟩ | ⟨s, t, rfl⟩)
        · exact ⟨[], t, by simp [← ht]⟩
        · exact ⟨c :: s, t, by simp⟩
      · rintro ⟨s, t, hst⟩
        cases s with
        | nil => exact Or.inl ⟨t, by simpa using hst.symm⟩
        | cons x s2 =>
            right
            refine ⟨s2, t, ?_⟩
            have := hst
            simp only [List.cons_append] at this
            exact (List.cons.inj this).2

theorem jsReplace_no_occurrence {l pat rep : List Char} (h : occursL pat l = false) :
    jsReplace l pat rep = l := by
  induction l with
  | nil =>
      simp only [occursL] at h
      simp [jsReplace, h]
  | cons c r ih =>
      simp only [occursL, Bool.or_eq_false_iff] at h
      simp only [jsReplace, h.1, Bool.false_eq_true, if_false]
      rw [ih h.2]

theorem jsReplace_first {a pat b rep : List Char}
    (hfirst : occursL pat (a ++ pat.dropLast) = false) :
    jsReplace (a ++ pat ++ b) pat rep = a ++ rep ++ b := by
  have hpne : pat ≠ [] := by
    intro h
    subst h
    cases a with
    | nil => simp [occursL] at hfirst
    | cons x r => simp [occursL, List.isPrefixOf] at hfirst
  induction a with
  | nil =>
      obtain ⟨p0, pr, rfl⟩ := List.exists_cons_of_ne_nil hpne
      have hpref : (p0 :: pr).isPrefixOf (p0 :: (pr ++ b)) = true := by
        rw [List.isPrefixOf_iff_prefix]
        exact ⟨b, by simp⟩
      show jsReplace ((p0 :: pr) ++ b) (p0 :: pr) rep = rep ++ b
      rw [show (p0 :: pr) ++ b = p0 :: (pr ++ b) from rfl]
      simp only [jsReplace, hpref, if_true]
      rw [show p0 :: (pr ++ b) = (p0 :: pr) ++ b from rfl, List.drop_left]
  | cons c a2 ih =>
      have hnp : pat.isPrefixOf (c :: (a2 ++ pat ++ b)) = false := by
        by_contra hcon
        have hpref : pat <+: (c :: a2) ++ pat ++ b := by
          rw [← List.isPrefixOf_iff_prefix]
          have := Bool.of_not_eq_false hcon
          simpa using this
        obtain ⟨t, ht⟩ := hpref
        have hplen : 0 < pat.length := List.length_pos_of_ne_nil hpne
        set n : Nat := ((c :: a2) ++ pat.dropLast).length with hn
        have hn2 : n = (c :: a2).length + (pat.length - 1) := by
          rw [hn]; simp only [List.length_append, List.length_dropLast]
        have hlen : pat.length ≤ n := by
          rw [hn2]; simp only [List.length_cons]; omega
        have htake : ((c :: a2) ++ pat ++ b).take n = (c :: a2) ++ pat.dropLast := by
          rw [List.append_assoc, hn2, List.take_append_eq_append_take,
            List.take_of_length_le (by omega)]
          congr 1
          have harith : (c :: a2).length + (pat.length - 1) - (c :: a2).length
              = pat.length - 1 := by omega
          rw [harith, List.take_append_of_le_length (by omega), ← List.dropLast_eq_take]
        have htake2 : ((c :: a2) ++ pat ++ b).take n
            = pat ++ (t.take (n - pat.length)) := by
          rw [← ht, List.take_append_eq_append_take, List.take_of_length_le hlen]
        have hocc : occursL pat ((c :: a2) ++ pat.dropLast) = true := by
          rw [occursL_iff]
          exact ⟨[], t.take (n - pat.length), by rw [← htake, htake2]; simp⟩
        rw [hocc] at hfirst
        exact absurd hfirst (by simp)
      have hrest : occursL pat (a2 ++ pat.dropLast) = false := by
        rw [show (c :: a2) ++ pat.dropLast = c :: (a2 ++ pat.dropLast) from rfl] at hfirst
        simp only [occursL, Bool.or_eq_false_iff] at hfirst
        exact hfirst.2
      show jsReplace ((c :: a2) ++ pat ++ b) pat rep = (c :: a2) ++ rep ++ b
      rw [show (c :: a2) ++ pat ++ b = c :: (a2 ++ pat ++ b) from rfl]
      simp only [jsReplace, hnp, Bool.false_eq_true, if_false]
      rw [ih hrest]
      rfl

theorem string_eq_of_data {s t : String} (h : s.data = t.data) : s = t := by
  cases s; cases t; exact congrArg String.mk h

theorem isDigitC_ne_dot {c : Char} (h : isDigitC c = true) : c ≠ '.' := by
  intro he; rw [he] at h; exact absurd h (by decide)

theorem isDigitC_ne_plus {c : Char} (h : isDigitC c = true) : c ≠ '+' := by
  intro he; rw [he] at h; exact absurd h (by decide)

theorem isDigitC_ne_minus {c : Char} (h : isDigitC c = true) : c ≠ '-' := by
  intro he; rw [he] at h; exact absurd h (by decide)

theorem isJsWS_eq_false_of_digit {c : Char} (h : isDigitC c = true) : isJsWS c = false := by
  cases hw : isJsWS c
  · rfl
  · exfalso
    simp only [isJsWS, Bool.or_eq_true, decide_eq_true_eq] at hw
    rcases hw with ((((hc | hc) | hc) | hc) | hc) | hc
    all_goals rw [hc] at h
    all_goals exact absurd h (by decide)

/-- The decimal rendering of a nonzero number never starts with `'0'`, so it
never triggers the `0x` hexadecimal branch of `parseInt`. -/
theorem decRender_head_ne_zero {n : Nat} (h0 : n ≠ 0) {c : Char} {rest : List Char}
    (hds : decRender n = c :: rest) : c ≠ '0' := by
  have hne : Nat.digits 10 n ≠ [] := Nat.digits_ne_nil_iff_ne_zero.mpr h0
  have hd := decRender_eq h0
  rw [hds] at hd
  have hh : some c = (((Nat.digits 10 n).map dchar).reverse).head? := by
    rw [← hd]
    rfl
  rw [List.head?_reverse, List.getLast?_map, List.getLast?_eq_getLast _ hne,
    Option.map_some'] at hh
  have hc : c = dchar ((Nat.digits 10 n).getLast hne) := Option.some.inj hh
  have hdlt : (Nat.digits 10 n).getLast hne < 10 :=
    Nat.digits_lt_base (by norm_num) (List.getLast_mem hne)
  have hd0 : (Nat.digits 10 n).getLast hne ≠ 0 := Nat.getLast_digit_ne_zero 10 h0
  intro hc0
  apply hd0
  have hval := dval_dchar hdlt
  rw [← hc, hc0] at hval
  simpa using hval.symm

theorem jsParseInt_decRenderS (n : Nat) : jsParseInt (decRenderS n) = some (n : Int) := by
  by_cases h0 : n = 0
  · subst h0; decide
  · obtain ⟨c, rest, hds⟩ := List.exists_cons_of_ne_nil (decRender_ne_nil n)
    have hc : isDigitC c = true := by
      apply decRender_all_digits n
      rw [hds]; exact List.mem_cons_self c rest
    have hc0 : c ≠ '0' := decRender_head_ne_zero h0 hds
    have hminus : ¬c = '-' := isDigitC_ne_minus hc
    have hplus : ¬c = '+' := isDigitC_ne_plus hc
    have hdigs : jsParseIntDigits (c :: rest) = some n := by
      have hall : (c :: rest).takeWhile isDigitC = c :: rest := by
        apply takeWhile_all
        intro x hx
        apply decRender_all_digits n
        rw [hds]; exact hx
      simp only [jsParseIntDigits, hall, List.isEmpty_cons, Bool.false_eq_true, if_false]
      rw [show c :: rest = decRender n from hds.symm, toNatDigits_decRender]
    have hbody : jsParseIntBody (c :: rest) = some n := by
      cases rest with
      | nil =>
          simp only [jsParseIntBody]
          exact hdigs
      | cons c1 rest2 =>
          have hcond : ¬(c = '0' ∧ (c1 = 'x' ∨ c1 = 'X')) := fun hcc => hc0 hcc.1
          simp only [jsParseIntBody]
          rw [if_neg hcond]
          exact hdigs
    have hws : (decRender n).dropWhile isJsWS = decRender n := by
      rw [hds, List.dropWhile_cons, isJsWS_eq_false_of_digit hc]
      simp
    show jsParseIntL ((decRender n).dropWhile isJsWS) = some (n : Int)
    rw [hws, hds]
    simp only [jsParseIntL, hminus, hplus, if_false, hbody, Option.map_some]
    rfl

/-- Sanity checks of the ECMAScript `parseInt` model on the behaviors that
distinguish it from strict base-10 parsing: hexadecimal `0x` input, a `0x`
prefix with no hex digits (NaN), leading whitespace, and a signed hex input. -/
theorem jsParseInt_examples :
    jsParseInt "0x1F" = some 31 ∧ jsParseInt "0xZ" = Option.none ∧
    jsParseInt "  12ab" = some 12 ∧ jsParseInt "-0x10" = some (-16) ∧
    jsParseInt "1a" = some 1 := by
  refine ⟨by decide, by decide, by decide, by decide, by decide⟩

/-- `bumpPatch` consequently matches JS on hex-looking prerelease segments:
`parseInt("0x1F") = 31` gives prerelease `"32"`, while `parseInt("0xZ")` is
NaN and appends `".1"`. -/
theorem bumpPatch_hex_examples :
    ((⟨1, 2, 3, some "0x1F"⟩ : SemanticVersion).bumpPatch).prerelease = some "32" ∧
    ((⟨1, 2, 3, some "0xZ"⟩ : SemanticVersion).bumpPatch).prerelease = some "0xZ.1" := by
  refine ⟨by decide, by decide⟩

theorem splitDot_decRender (n : Nat) : splitDot (decRender n) = [decRender n] :=
  splitDot_no_dot fun c hc => isDigitC_ne_dot (decRender_all_digits n c hc)

/-- Claim C6, as amended: `bumpPatch` on a final release opens `rc.1` with the
patch bumped; on a `rc.N` prerelease it advances to `rc.(N+1)` leaving the
numeric components untouched; and on a prerelease whose trailing dot-segment
makes JS `parseInt` return `NaN` it appends `".1"`. -/
theorem bumpPatch_cases (v : SemanticVersion) :
    (v.prerelease = Option.none →
      v.bumpPatch = { v with patch := v.patch + 1, prerelease := some "rc.1" }) ∧
    (∀ N : Nat, v.prerelease = some ("rc." ++ decRenderS N) →
      v.bumpPatch = { v with prerelease := some ("rc." ++ decRenderS (N + 1)) }) ∧
    (∀ p : String, v.prerelease = some p →
      jsParseInt (String.mk ((splitDot p.toList).getLastD [])) = Option.none →
      v.bumpPatch = { v with prerelease := some (p ++ ".1") }) := by
  refine ⟨fun h => ?_, fun N h => ?_, fun p h hnan => ?_⟩
  · simp only [SemanticVersion.bumpPatch, h]
  · have htl : ("rc." ++ decRenderS N).toList = 'r' :: 'c' :: '.' :: decRender N := rfl
    have hsplit : splitDot (('r' :: 'c' :: []) ++ '.' :: decRender N)
        = ('r' :: 'c' :: []) :: splitDot (decRender N) :=
      splitDot_append_no_dot (by decide)
    simp only [SemanticVersion.bumpPatch, h, htl]
    rw [show ('r' :: 'c' :: '.' :: decRender N) = ('r' :: 'c' :: []) ++ '.' :: decRender N
        from rfl, hsplit, splitDot_decRender]
    simp only [List.getLastD, List.getLast, List.dropLast]
    rw [show String.mk (decRender N) = decRenderS N from rfl, jsParseInt_decRenderS]
    have hint : intRender ((N : Int) + 1) = decRenderS (N + 1) := by
      have hpos : ¬((N : Int) + 1 < 0) := by omega
      have htn : ((N : Int) + 1).toNat = N + 1 := by omega
      simp only [intRender, hpos, if_false, htn, decRenderS]
    simp only [hint]
    rfl
  · simp only [SemanticVersion.bumpPatch, h, hnan]

/-- Claim C6 counterexample: the prerelease `"1a"` has a non-numeric trailing
dot-segment, but JS `parseInt("1a")` is `1`, so `bumpPatch` replaces the
segment by `"2"` instead of appending `".1"` as the claim predicts. -/
theorem bumpPatch_counterexample :
    SemanticVersion.parse "1.2.3-1a" = some ⟨1, 2, 3, some "1a"⟩ ∧
    ((⟨1, 2, 3, some "1a"⟩ : SemanticVersion).bumpPatch).prerelease = some "2" ∧
    some "2" ≠ some ("1a" ++ ".1") := by
  refine ⟨by decide, by decide, by decide⟩

/-- Witness for the amended C6 theorem: all three clauses at concrete inputs,
the third clause both at `"foo"` and at the hex-looking JS-NaN segment
`"0xZ"`. -/
theorem bumpPatch_cases_witness :
    ((⟨1, 2, 3, Option.none⟩ : SemanticVersion).bumpPatch
        = ⟨1, 2, 4, some "rc.1"⟩) ∧
    ((⟨1, 2, 3, some ("rc." ++ decRenderS 1)⟩ : SemanticVersion).bumpPatch
        = ⟨1, 2, 3, some ("rc." ++ decRenderS 2)⟩) ∧
    ((⟨1, 2, 3, some "foo"⟩ : SemanticVersion).bumpPatch
        = ⟨1, 2, 3, some ("foo" ++ ".1")⟩) ∧
    ((⟨1, 2, 3, some "0xZ"⟩ : SemanticVersion).bumpPatch
        = ⟨1, 2, 3, some ("0xZ" ++ ".1")⟩) := by
  refine ⟨(bumpPatch_cases _).1 rfl, (bumpPatch_cases _).2.1 1 rfl, ?_, ?_⟩
  · exact (bumpPatch_cases _).2.2 "foo" rfl (by decide)
  · exact (bumpPatch_cases _).2.2 "0xZ" rfl (by decide)

/-- What a successful numeric-part parse tells us about the input: the parsed
prefix is exactly the decimal rendering of the value. -/
theorem parseNumPart_sound : ∀ {cs : List Char} {n : Nat} {rest : List Char},
    parseNumPart cs = some (n, rest) → cs = decRender n ++ rest := by
  intro cs n rest h
  cases cs with
  | nil => exact absurd h (by simp [parseNumPart])
  | cons c cs2 =>
    simp only [parseNumPart] at h
    by_cases h0 : c = '0'
    · rw [if_pos h0] at h
      simp only [Option.some.injEq, Prod.mk.injEq] at h
      obtain ⟨hn, hr⟩ := h
      subst hn; subst hr; subst h0
      rfl
    · rw [if_neg h0] at h
      by_cases hd : isDigitC c = true
      · rw [if_pos hd] at h
        simp only [Option.some.injEq, Prod.mk.injEq] at h
        obtain ⟨hn, hr⟩ := h
        subst hn; subst hr
        have htw : (c :: cs2).takeWhile isDigitC = c :: cs2.takeWhile isDigitC := by
          rw [List.takeWhile_cons, if_pos hd]
        have hren : decRender (toNatDigits ((c :: cs2).takeWhile isDigitC))
            = (c :: cs2).takeWhile isDigitC := by
          apply decRender_toNatDigits
          · rw [htw]; exact List.cons_ne_nil _ _
          · intro x hx; exact List.mem_takeWhile_imp hx
          · right; rw [htw]; simp only [List.head?_cons, ne_eq, Option.some.injEq]
            exact h0
        rw [hren, List.takeWhile_append_dropWhile]
      · rw [if_neg hd] at h
        exact absurd h (by simp)

/-- `v.toString` character by character. -/
theorem toString_data (v : SemanticVersion) :
    v.toString.data = 'v' :: (decRender v.major ++ '.' :: (decRender v.minor ++
      '.' :: (decRender v.patch ++
        (match v.prerelease with
         | some p => '-' :: p.data
         | Option.none => [])))) := by
  obtain ⟨ma, mi, pa, pre⟩ := v
  cases pre with
  | none =>
      show ((((((['v'] ++ decRender ma) ++ ['.']) ++ decRender mi) ++ ['.']) ++
        decRender pa) ++ []) = _
      simp [List.append_assoc]
  | some p =>
      show ((((((['v'] ++ decRender ma) ++ ['.']) ++ decRender mi) ++ ['.']) ++
        decRender pa) ++ ('-' :: p.data)) = _
      simp [List.append_assoc]

theorem decide_ne_plus_of_digit {c : Char} (h : isDigitC c = true) :
    decide (c ≠ '+') = true := decide_eq_true (isDigitC_ne_plus h)

theorem takeWhile_ne_plus_chain (maj minr pat : Nat) (r3 : List Char) :
    (decRender maj ++ '.' :: (decRender minr ++ '.' :: (decRender pat ++ r3))).takeWhile
        (fun c => c ≠ '+')
    = decRender maj ++ '.' :: (decRender minr ++ '.' :: (decRender pat ++
        r3.takeWhile (fun c => c ≠ '+'))) := by
  have hd : ∀ n : Nat, ∀ c ∈ decRender n, decide (c ≠ '+') = true :=
    fun n c hc => decide_ne_plus_of_digit (decRender_all_digits n c hc)
  rw [takeWhile_append_all (hd maj), List.takeWhile_cons, if_pos (by decide)]
  rw [takeWhile_append_all (hd minr), List.takeWhile_cons, if_pos (by decide)]
  rw [takeWhile_append_all (hd pat)]

theorem parseSemVerCore_toString : ∀ {cs : List Char} {v : SemanticVersion},
    parseSemVerCore cs = some v →
    v.toString.data = 'v' :: cs.takeWhile (fun c => c ≠ '+') := by
  intro cs v h
  unfold parseSemVerCore at h
  cases h1 : parseNumPart cs with
  | none => rw [h1] at h; exact absurd h (by simp)
  | some p1 =>
    obtain ⟨maj, r1⟩ := p1
    rw [h1] at h
    dsimp only at h
    cases h2 : expectChar '.' r1 with
    | none => rw [h2] at h; exact absurd h (by simp)
    | some r1b =>
      rw [h2] at h
      dsimp only at h
      cases h3 : parseNumPart r1b with
      | none => rw [h3] at h; exact absurd h (by simp)
      | some p2 =>
        obtain ⟨minr, r2⟩ := p2
        rw [h3] at h
        dsimp only at h
        cases h4 : expectChar '.' r2 with
        | none => rw [h4] at h; exact absurd h (by simp)
        | some r2b =>
          rw [h4] at h
          dsimp only at h
          cases h5 : parseNumPart r2b with
          | none => rw [h5] at h; exact absurd h (by simp)
          | some p3 =>
            obtain ⟨pat, r3⟩ := p3
            rw [h5] at h
            dsimp only at h
            have hr1 : r1 = '.' :: r1b := by
              cases r1 with
              | nil => exact absurd h2 (by simp [expectChar])
              | cons x r =>
                  simp only [expectChar] at h2
                  by_cases hx : x = '.'
                  · rw [if_pos hx] at h2
                    simp only [Option.some.injEq] at h2
                    rw [hx, h2]
                  · rw [if_neg hx] at h2; exact absurd h2 (by simp)
            have hr2 : r2 = '.' :: r2b := by
              cases r2 with
              | nil => exact absurd h4 (by simp [expectChar])
              | cons x r =>
                  simp only [expectChar] at h4
                  by_cases hx : x = '.'
                  · rw [if_pos hx] at h4
                    simp only [Option.some.injEq] at h4
                    rw [hx, h4]
                  · rw [if_neg hx] at h4; exact absurd h4 (by simp)
            have hcs : cs = decRender maj ++ '.' :: (decRender minr ++ '.' ::
                (decRender pat ++ r3)) := by
              rw [parseNumPart_sound h1, hr1, parseNumPart_sound h3, hr2,
                parseNumPart_sound h5]
            rw [hcs, takeWhile_ne_plus_chain]
            cases r3 with
            | nil =>
                simp only [Option.some.injEq] at h
                subst h
                rw [toString_data]
                simp
            | cons c r4 =>
                dsimp only at h
                by_cases hc1 : c = '-'
                · rw [if_pos hc1] at h
                  by_cases hvp : validPrerelease (r4.takeWhile (fun x => x ≠ '+')) = true
                  · rw [if_pos hvp] at h
                    have hbody : v = ⟨maj, minr, pat,
                        some (String.mk (r4.takeWhile (fun x => x ≠ '+')))⟩ := by
                      cases h6 : r4.dropWhile (fun x => x ≠ '+') with
                      | nil =>
                          rw [h6] at h
                          dsimp only at h
                          simp only [Option.some.injEq] at h
                          exact h.symm
                      | cons y bld =>
                          rw [h6] at h
                          dsimp only at h
                          by_cases hvb : validBuild bld = true
                          · rw [if_pos hvb] at h
                            simp only [Option.some.injEq] at h
                            exact h.symm
                          · rw [if_neg hvb] at h; exact absurd h (by simp)
                    subst hbody
                    rw [toString_data]
                    subst hc1
                    rw [List.takeWhile_cons, if_pos (by decide)]
                  · rw [if_neg hvp] at h; exact absurd h (by simp)
                · rw [if_neg hc1] at h
                  by_cases hc2 : c = '+'
                  · rw [if_pos hc2] at h
                    by_cases hvb : validBuild r4 = true
                    · rw [if_pos hvb] at h
                      simp only [Option.some.injEq] at h
                      subst h
                      rw [toString_data]
                      subst hc2
                      rw [List.takeWhile_cons, if_neg (by decide)]
                    · rw [if_neg hvb] at h; exact absurd h (by simp)
                  · rw [if_neg hc2] at h; exact absurd h (by simp)

/-- Claim C9: for every string accepted by the semantic-version grammar,
parsing and re-rendering yields the input normalized: `v`-prefixed, with the
build-metadata part (and nothing else) dropped; the prerelease part is kept
verbatim and omitted exactly when absent. -/
theorem parse_toString_roundtrip (s : String) (v : SemanticVersion)
    (h : SemanticVersion.parse s = some v) :
    v.toString = "v" ++ coreOf s := by
  apply string_eq_of_data
  have hc := parseSemVerCore_toString (h : parseSemVerCore (stripLeadingV s.toList) = some v)
  rw [hc]
  rfl

/-- Witness for C9 at a concrete versioned string with build metadata. -/
theorem parse_toString_roundtrip_witness :
    SemanticVersion.parse "1.2.3-rc.1+build.5" = some ⟨1, 2, 3, some "rc.1"⟩ ∧
    (⟨1, 2, 3, some "rc.1"⟩ : SemanticVersion).toString = "v" ++ coreOf "1.2.3-rc.1+build.5" :=
  ⟨by decide, parse_toString_roundtrip _ _ (by decide)⟩

theorem listMaxRT_cons (a : RELEASE_TYPES) (l : List RELEASE_TYPES) :
    listMaxRT (a :: l) = maxRT a (listMaxRT l) := rfl

theorem maxRT_none_left (x : RELEASE_TYPES) : maxRT .none x = x := by
  cases x <;> rfl

theorem listMaxRT_major_mem (a b : List RELEASE_TYPES) :
    listMaxRT (a ++ .major :: b) = .major := by
  induction a with
  | nil =>
      rw [List.nil_append, listMaxRT_cons]
      generalize listMaxRT b = X
      cases X <;> rfl
  | cons x a2 ih =>
      rw [List.cons_append, listMaxRT_cons, ih]
      cases x <;> rfl

/-- The aggregation loop with any accumulator computes the maximum severity of
the accumulator and the per-message classifications. -/
theorem releaseTypeGo_eq (msgs : List String) :
    ∀ acc, releaseTypeGo msgs acc
      = maxRT acc (listMaxRT (msgs.map parseReleaseTypeFromCommitMessage)) := by
  induction msgs with
  | nil => intro acc; cases acc <;> rfl
  | cons m rest ih =>
      intro acc
      rw [List.map_cons, listMaxRT_cons]
      cases hm : parseReleaseTypeFromCommitMessage m <;> cases acc <;>
        simp [releaseTypeGo, hm, ih] <;>
        (generalize listMaxRT (rest.map parseReleaseTypeFromCommitMessage) = X
         cases X <;> rfl)

/-- Claim C7: `releaseTypeFromCommitMessages` returns the maximum-severity
classification under major > minor > patch > none; consequently it is monotone:
inserting any major-classified message — in particular `"feat!: x"` — anywhere
forces the aggregate to major. -/
theorem releaseTypeFromCommitMessages_spec :
    (∀ msgs : List String, releaseTypeFromCommitMessages msgs
        = listMaxRT (msgs.map parseReleaseTypeFromCommitMessage)) ∧
    (∀ msg : String, parseReleaseTypeFromCommitMessage msg = .major →
      ∀ l1 l2 : List String, releaseTypeFromCommitMessages (l1 ++ msg :: l2) = .major) ∧
    parseReleaseTypeFromCommitMessage "feat!: x" = .major := by
  refine ⟨fun msgs => ?_, fun msg hm l1 l2 => ?_, by decide⟩
  · rw [releaseTypeFromCommitMessages, releaseTypeGo_eq, maxRT_none_left]
  · rw [releaseTypeFromCommitMessages, releaseTypeGo_eq, maxRT_none_left,
      List.map_append, List.map_cons, hm, listMaxRT_major_mem]

/-- Witness for C7: the monotonicity clause at a concrete list. -/
theorem releaseTypeFromCommitMessages_spec_witness :
    releaseTypeFromCommitMessages ["fix: a", "feat!: x", "chore: b"] = .major :=
  releaseTypeFromCommitMessages_spec.2.1 "feat!: x" (by decide) ["fix: a"] ["chore: b"]

/-- Claim C8, as amended: on a message matching the conventional-commit
grammar, a bang forces major; a `"\nBREAKING CHANGE: "` marker inside capture
group 4 — the LAST footer block — forces major; otherwise type `feat` gives
minor, `fix` patch, and any other recognized type none.  (A marker that sits
only in an earlier footer block is not seen: group 4 holds the last repetition
only.) -/
theorem parseReleaseType_spec (msg : String) (m : CCMatch)
    (h : matchCC msg = some m) :
    (m.bang = true → parseReleaseTypeFromCommitMessage msg = .major) ∧
    (markerInBody m.body = true → parseReleaseTypeFromCommitMessage msg = .major) ∧
    (m.bang = false → markerInBody m.body = false →
      parseReleaseTypeFromCommitMessage msg =
        (if m.ty = "feat" then .minor else if m.ty = "fix" then .patch else .none)) := by
  unfold parseReleaseTypeFromCommitMessage
  rw [h]
  dsimp only
  refine ⟨fun hb => ?_, fun hmk => ?_, fun hb hmk => ?_⟩
  · cases hbody : m.body with
    | none => simp [hb]
    | some f => by_cases hf : occursStr f "\nBREAKING CHANGE: " = true <;> simp [hb, hf]
  · cases hbody : m.body with
    | none => rw [hbody] at hmk; exact absurd hmk (by simp [markerInBody])
    | some f =>
        rw [hbody] at hmk
        simp only [markerInBody] at hmk
        simp [hmk]
  · cases hbody : m.body with
    | none => simp [hb]
    | some f =>
        rw [hbody] at hmk
        simp only [markerInBody] at hmk
        simp [hb, hmk]

/-- Claim C8 counterexample: this message conforms to the grammar and has a
footer paragraph containing the literal marker, yet — the marker being in the
first of two footer blocks while group 4 holds only the last — it classifies
as minor, not major. -/
theorem parseReleaseType_counterexample :
    (matchCC "feat: x\n\nBREAKING CHANGE: a\n\nb").isSome = true ∧
    occursStr "feat: x\n\nBREAKING CHANGE: a\n\nb" "\nBREAKING CHANGE: " = true ∧
    parseReleaseTypeFromCommitMessage "feat: x\n\nBREAKING CHANGE: a\n\nb" = .minor ∧
    RELEASE_TYPES.minor ≠ RELEASE_TYPES.major :=
  ⟨by decide, by decide, by decide, by decide⟩

/-- Witness for the amended C8 theorem: all three clauses at concrete
messages. -/
theorem parseReleaseType_spec_witness :
    (matchCC "feat(core)!: add" = some ⟨"feat", some "core", true, Option.none⟩ ∧
      parseReleaseTypeFromCommitMessage "feat(core)!: add" = .major) ∧
    (matchCC "feat: x\n\nBREAKING CHANGE: y"
        = some ⟨"feat", Option.none, false, some "\n\nBREAKING CHANGE: y"⟩ ∧
      parseReleaseTypeFromCommitMessage "feat: x\n\nBREAKING CHANGE: y" = .major) ∧
    (matchCC "fix: y" = some ⟨"fix", Option.none, false, Option.none⟩ ∧
      parseReleaseTypeFromCommitMessage "fix: y" = .patch) := by
  refine ⟨⟨by decide, ?_⟩, ⟨by decide, ?_⟩, ⟨by decide, ?_⟩⟩
  · exact (parseReleaseType_spec _ ⟨"feat", some "core", true, Option.none⟩ (by decide)).1 rfl
  · exact (parseReleaseType_spec _ ⟨"feat", Option.none, false, some "\n\nBREAKING CHANGE: y"⟩
      (by decide)).2.1 (by decide)
  · exact (parseReleaseType_spec _ ⟨"fix", Option.none, false, Option.none⟩
      (by decide)).2.2 rfl (by decide)

/-- Claim C10: `generateReleaseBranchName` substitutes only the first
occurrence of each placeholder — later duplicates stay verbatim — and an
absent prerelease substitutes as the empty string.  Each clause fixes one
placeholder occurring twice; the `occursL` hypotheses say the pattern first
occurs where exhibited and the other placeholders do not occur. -/
theorem generateReleaseBranchName_spec :
    (∀ (v : SemanticVersion) (a b c : List Char),
      occursL "$\x7bmajor\x7d".toList (a ++ "$\x7bmajor\x7d".toList.dropLast) = false →
      occursL "$\x7bminor\x7d".toList
        (a ++ decRender v.major ++ b ++ "$\x7bmajor\x7d".toList ++ c) = false →
      occursL "$\x7bpatch\x7d".toList
        (a ++ decRender v.major ++ b ++ "$\x7bmajor\x7d".toList ++ c) = false →
      occursL "$\x7bprerelease\x7d".toList
        (a ++ decRender v.major ++ b ++ "$\x7bmajor\x7d".toList ++ c) = false →
      generateReleaseBranchName
          (String.mk (a ++ "$\x7bmajor\x7d".toList ++ (b ++ "$\x7bmajor\x7d".toList ++ c))) v
        = String.mk (a ++ decRender v.major ++ (b ++ "$\x7bmajor\x7d".toList ++ c))) ∧
    (∀ (v : SemanticVersion) (a b c : List Char),
      occursL "$\x7bmajor\x7d".toList (a ++ "$\x7bminor\x7d".toList ++
        (b ++ "$\x7bminor\x7d".toList ++ c)) = false →
      occursL "$\x7bminor\x7d".toList (a ++ "$\x7bminor\x7d".toList.dropLast) = false →
      occursL "$\x7bpatch\x7d".toList
        (a ++ decRender v.minor ++ b ++ "$\x7bminor\x7d".toList ++ c) = false →
      occursL "$\x7bprerelease\x7d".toList
        (a ++ decRender v.minor ++ b ++ "$\x7bminor\x7d".toList ++ c) = false →
      generateReleaseBranchName
          (String.mk (a ++ "$\x7bminor\x7d".toList ++ (b ++ "$\x7bminor\x7d".toList ++ c))) v
        = String.mk (a ++ decRender v.minor ++ (b ++ "$\x7bminor\x7d".toList ++ c))) ∧
    (∀ (v : SemanticVersion) (a b c : List Char),
      occursL "$\x7bmajor\x7d".toList (a ++ "$\x7bpatch\x7d".toList ++
        (b ++ "$\x7bpatch\x7d".toList ++ c)) = false →
      occursL "$\x7bminor\x7d".toList (a ++ "$\x7bpatch\x7d".toList ++
        (b ++ "$\x7bpatch\x7d".toList ++ c)) = false →
      occursL "$\x7bpatch\x7d".toList (a ++ "$\x7bpatch\x7d".toList.dropLast) = false →
      occursL "$\x7bprerelease\x7d".toList
        (a ++ decRender v.patch ++ b ++ "$\x7bpatch\x7d".toList ++ c) = false →
      generateReleaseBranchName
          (String.mk (a ++ "$\x7bpatch\x7d".toList ++ (b ++ "$\x7bpatch\x7d".toList ++ c))) v
        = String.mk (a ++ decRender v.patch ++ (b ++ "$\x7bpatch\x7d".toList ++ c))) ∧
    (∀ (v : SemanticVersion) (a b c : List Char),
      occursL "$\x7bmajor\x7d".toList (a ++ "$\x7bprerelease\x7d".toList ++
        (b ++ "$\x7bprerelease\x7d".toList ++ c)) = false →
      occursL "$\x7bminor\x7d".toList (a ++ "$\x7bprerelease\x7d".toList ++
        (b ++ "$\x7bprerelease\x7d".toList ++ c)) = false →
      occursL "$\x7bpatch\x7d".toList (a ++ "$\x7bprerelease\x7d".toList ++
        (b ++ "$\x7bprerelease\x7d".toList ++ c)) = false →
      occursL "$\x7bprerelease\x7d".toList
        (a ++ "$\x7bprerelease\x7d".toList.dropLast) = false →
      generateReleaseBranchName
          (String.mk (a ++ "$\x7bprerelease\x7d".toList ++
            (b ++ "$\x7bprerelease\x7d".toList ++ c))) v
        = String.mk (a ++ (v.prerelease.getD "").toList ++
            (b ++ "$\x7bprerelease\x7d".toList ++ c))) := by
  refine ⟨fun v a b c h1 h2 h3 h4 => ?_, fun v a b c h1 h2 h3 h4 => ?_,
    fun v a b c h1 h2 h3 h4 => ?_, fun v a b c h1 h2 h3 h4 => ?_⟩
  · have h2x : occursL "$\x7bminor\x7d".toList
        (a ++ decRender v.major ++ (b ++ "$\x7bmajor\x7d".toList ++ c)) = false := by
      simpa [List.append_assoc] using h2
    have h3x : occursL "$\x7bpatch\x7d".toList
        (a ++ decRender v.major ++ (b ++ "$\x7bmajor\x7d".toList ++ c)) = false := by
      simpa [List.append_assoc] using h3
    have h4x : occursL "$\x7bprerelease\x7d".toList
        (a ++ decRender v.major ++ (b ++ "$\x7bmajor\x7d".toList ++ c)) = false := by
      simpa [List.append_assoc] using h4
    show String.mk (jsReplace (jsReplace (jsReplace (jsReplace
      (a ++ "$\x7bmajor\x7d".toList ++ (b ++ "$\x7bmajor\x7d".toList ++ c)) _ _) _ _) _ _) _ _)
      = _
    rw [jsReplace_first h1, jsReplace_no_occurrence h2x, jsReplace_no_occurrence h3x,
      jsReplace_no_occurrence h4x]
  · have h3x : occursL "$\x7bpatch\x7d".toList
        (a ++ decRender v.minor ++ (b ++ "$\x7bminor\x7d".toList ++ c)) = false := by
      simpa [List.append_assoc] using h3
    have h4x : occursL "$\x7bprerelease\x7d".toList
        (a ++ decRender v.minor ++ (b ++ "$\x7bminor\x7d".toList ++ c)) = false := by
      simpa [List.append_assoc] using h4
    show String.mk (jsReplace (jsReplace (jsReplace (jsReplace
      (a ++ "$\x7bminor\x7d".toList ++ (b ++ "$\x7bminor\x7d".toList ++ c)) _ _) _ _) _ _) _ _)
      = _
    rw [jsReplace_no_occurrence h1, jsReplace_first h2, jsReplace_no_occurrence h3x,
      jsReplace_no_occurrence h4x]
  · have h4x : occursL "$\x7bprerelease\x7d".toList
        (a ++ decRender v.patch ++ (b ++ "$\x7bpatch\x7d".toList ++ c)) = false := by
      simpa [List.append_assoc] using h4
    show String.mk (jsReplace (jsReplace (jsReplace (jsReplace
      (a ++ "$\x7bpatch\x7d".toList ++ (b ++ "$\x7bpatch\x7d".toList ++ c)) _ _) _ _) _ _) _ _)
      = _
    rw [jsReplace_no_occurrence h1, jsReplace_no_occurrence h2, jsReplace_first h3,
      jsReplace_no_occurrence h4x]
  · show String.mk (jsReplace (jsReplace (jsReplace (jsReplace
      (a ++ "$\x7bprerelease\x7d".toList ++ (b ++ "$\x7bprerelease\x7d".toList ++ c)) _ _) _ _)
        _ _) _ _) = _
    rw [jsReplace_no_occurrence h1, jsReplace_no_occurrence h2,
      jsReplace_no_occurrence h3, jsReplace_first h4]

/-- Witness for C10: all four clauses at concrete templates, the prerelease
clause both with a present and an absent prerelease. -/
theorem generateReleaseBranchName_spec_witness :
    generateReleaseBranchName "r-$\x7bmajor\x7d.$\x7bmajor\x7d" ⟨7, 8, 9, some "rc.2"⟩
      = "r-7.$\x7bmajor\x7d" ∧
    generateReleaseBranchName "r-$\x7bminor\x7d.$\x7bminor\x7d" ⟨7, 8, 9, some "rc.2"⟩
      = "r-8.$\x7bminor\x7d" ∧
    generateReleaseBranchName "r-$\x7bpatch\x7d.$\x7bpatch\x7d" ⟨7, 8, 9, some "rc.2"⟩
      = "r-9.$\x7bpatch\x7d" ∧
    generateReleaseBranchName "r-$\x7bprerelease\x7d.$\x7bprerelease\x7d"
        ⟨7, 8, 9, some "rc.2"⟩ = "r-rc.2.$\x7bprerelease\x7d" ∧
    generateReleaseBranchName "r-$\x7bprerelease\x7d.$\x7bprerelease\x7d"
        ⟨7, 8, 9, Option.none⟩ = "r-.$\x7bprerelease\x7d" := by
  refine ⟨?_, ?_, ?_, ?_, ?_⟩
  · exact generateReleaseBranchName_spec.1 ⟨7, 8, 9, some "rc.2"⟩
      "r-".toList ".".toList [] (by decide) (by decide) (by decide) (by decide)
  · exact generateReleaseBranchName_spec.2.1 ⟨7, 8, 9, some "rc.2"⟩
      "r-".toList ".".toList [] (by decide) (by decide) (by decide) (by decide)
  · exact generateReleaseBranchName_spec.2.2.1 ⟨7, 8, 9, some "rc.2"⟩
      "r-".toList ".".toList [] (by decide) (by decide) (by decide) (by decide)
  · exact generateReleaseBranchName_spec.2.2.2 ⟨7, 8, 9, some "rc.2"⟩
      "r-".toList ".".toList [] (by decide) (by decide) (by decide) (by decide)
  · exact generateReleaseBranchName_spec.2.2.2 ⟨7, 8, 9, Option.none⟩
      "r-".toList ".".toList [] (by decide) (by decide) (by decide) (by decide)

theorem mem_insertSorted {le : String → String → Bool} {a x : String} :
    ∀ {l : List String}, x ∈ insertSorted le a l ↔ x = a ∨ x ∈ l := by
  intro l
  induction l with
  | nil => simp [insertSorted]
  | cons b r ih =>
      simp only [insertSorted]
      by_cases hle : le a b = true
      · simp [hle]
      · simp only [hle, Bool.false_eq_true, if_false, List.mem_cons, ih]
        tauto

theorem mem_sortList {le : String → String → Bool} {x : String} :
    ∀ {l : List String}, x ∈ l.foldr (insertSorted le) [] ↔ x ∈ l := by
  intro l
  induction l with
  | nil => simp
  | cons b r ih => simp [mem_insertSorted, ih]

theorem alookup_eq_of_mem_nodup {α β : Type} [DecidableEq α] :
    ∀ {l : List (α × β)} {k : α} {v : β},
      (k, v) ∈ l → (l.map Prod.fst).Nodup → alookup l k = some v := by
  intro l
  induction l with
  | nil => intro k v h; simp at h
  | cons p r ih =>
      intro k v hmem hnd
      obtain ⟨k1, v1⟩ := p
      simp only [List.map_cons, List.nodup_cons] at hnd
      rcases List.mem_cons.mp hmem with heq | htl
      · obtain ⟨h1, h2⟩ := Prod.mk.injEq .. ▸ heq
        subst h1; subst h2
        simp [alookup]
      · have hkne : k ≠ k1 := by
          intro hk
          subst hk
          exact hnd.1 (List.mem_map.mpr ⟨(k, v), htl, rfl⟩)
        simp only [alookup, hkne, if_false]
        exact ih htl hnd.2

theorem mem_getTagsAtHEAD {r : Repo} {t : String} (h : t ∈ getTagsAtHEAD r) :
    (t, r.headCommit) ∈ r.tags := by
  unfold getTagsAtHEAD sortStrings at h
  rw [mem_sortList] at h
  rw [List.mem_map] at h
  obtain ⟨⟨t1, c1⟩, hmem, rfl⟩ := h
  have := List.mem_filter.mp hmem
  have hc : c1 = r.headCommit := by simpa using this.2
  rw [← hc]
  exact this.1

theorem run_release_eq {cfg : Config} {r : Repo} (hact : cfg.action = "release") :
    run cfg r = runRelease cfg r := by
  unfold run
  rw [hact, if_neg (by simp), if_pos rfl]

theorem run_releaseCut_eq {cfg : Config} {r : Repo} (hact : cfg.action = "release-cut") :
    run cfg r = runReleaseCut cfg r := by
  unfold run
  rw [hact, if_neg (by simp), if_neg (by simp)]

/-- Claim C1 (refuted by the code, confirmed by the specification and the
repository's own test suite): `getLatestStableTag` ignores its scope.  In the
test-suite topology the scoped query of the spec yields `v1.0.0`, but the
implementation returns `v1.1.0`, a stable tag on an unrelated branch that is
not even reachable from the scoped branch. -/
theorem getLatestStableTag_ignores_scope :
    getLatestStableTag repoTwoReleaseLines = "v1.1.0" ∧
    getLatestStableTagScoped repoTwoReleaseLines "release-1.0.x" = "v1.0.0" ∧
    ("v1.1.0" : String) ≠ "v1.0.0" ∧
    (getTags repoTwoReleaseLines "release-1.0.x").contains "v1.1.0" = false := by
  refine ⟨by decide, by decide, by decide, by decide⟩

/-- Claim C2: once a release-cut run has classified the branch and collected
the history, a major or minor aggregate off trunk and a patch aggregate on
trunk fail with the respective branch-placement error, with the store
unchanged (in the patch-on-trunk case in particular, no tag or branch has
been created: the returned store is the input store). -/
theorem releaseCut_placement (cfg : Config) (r : Repo) (v : SemanticVersion)
    (msgs : List String) (prev : String)
    (hact : cfg.action = "release-cut")
    (hcls : r.currentBranch = cfg.trunkBranchName ∨
      isReleaseBranch r.currentBranch cfg.releaseBranchRegex = true)
    (href : releaseCutReference r = .ok (v, msgs, prev)) :
    (releaseTypeFromCommitMessages msgs = .major → r.currentBranch ≠ cfg.trunkBranchName →
      run cfg r = (r, .error (.majorOffTrunk cfg.trunkBranchName))) ∧
    (releaseTypeFromCommitMessages msgs = .minor → r.currentBranch ≠ cfg.trunkBranchName →
      run cfg r = (r, .error (.minorOffTrunk cfg.trunkBranchName))) ∧
    (releaseTypeFromCommitMessages msgs = .patch → r.currentBranch = cfg.trunkBranchName →
      run cfg r = (r, .error (.patchOnTrunk cfg.trunkBranchName))) := by
  have hguard : ¬(r.currentBranch ≠ cfg.trunkBranchName ∧
      ((!(isReleaseBranch r.currentBranch cfg.releaseBranchRegex)) = true)) := by
    rcases hcls with h | h
    · intro hc; exact hc.1 h
    · intro hc; rw [h] at hc; simp at hc
  refine ⟨fun hty hnt => ?_, fun hty hnt => ?_, fun hty ht => ?_⟩
  · rw [run_releaseCut_eq hact]
    unfold runReleaseCut
    dsimp only
    rw [if_neg hguard]
    rw [href]
    dsimp only
    rw [hty]
    unfold releaseCutBump
    dsimp only
    rw [if_pos hnt]
  · rw [run_releaseCut_eq hact]
    unfold runReleaseCut
    dsimp only
    rw [if_neg hguard]
    rw [href]
    dsimp only
    rw [hty]
    unfold releaseCutBump
    dsimp only
    rw [if_pos hnt]
  · rw [run_releaseCut_eq hact]
    unfold runReleaseCut
    dsimp only
    rw [if_neg hguard]
    rw [href]
    dsimp only
    rw [hty]
    unfold releaseCutBump
    dsimp only
    rw [if_pos ht]

/-- Witness for C2: the three placement failures at concrete stores; the
patch-on-trunk run returns the input store untouched. -/
theorem releaseCut_placement_witness :
    run cfgReleaseCut repoTrunkPatch = (repoTrunkPatch, .error (.patchOnTrunk "main")) ∧
    run cfgReleaseCut repoRelMinor = (repoRelMinor, .error (.minorOffTrunk "main")) ∧
    run cfgReleaseCut repoRelMajor = (repoRelMajor, .error (.majorOffTrunk "main")) := by
  refine ⟨?_, ?_, ?_⟩
  · exact (releaseCut_placement cfgReleaseCut repoTrunkPatch ⟨1, 0, 0, Option.none⟩
      ["fix: bug"] "v1.0.0" rfl (Or.inl rfl) (by decide)).2.2 (by decide) rfl
  · exact (releaseCut_placement cfgReleaseCut repoRelMinor ⟨1, 0, 0, Option.none⟩
      ["feat: x"] "v1.0.0" rfl (Or.inr (by decide)) (by decide)).2.1 (by decide) (by decide)
  · exact (releaseCut_placement cfgReleaseCut repoRelMajor ⟨1, 0, 0, Option.none⟩
      ["feat!: x"] "v1.0.0" rfl (Or.inr (by decide)) (by decide)).1 (by decide) (by decide)

/-- Claim C3, as amended: HEAD validation for the release action runs in
order — no tags at HEAD fails EmptyHEAD; zero prerelease-parseable candidates
fails NoCandidateAtHEAD (even when stable tags are present at HEAD); more than
one candidate fails AmbiguousCandidates listing ALL tags at HEAD; and exactly
one candidate with at least one stable tag at HEAD fails AlreadyReleased,
again listing ALL tags at HEAD. -/
theorem release_head_validation (cfg : Config) (r : Repo)
    (hact : cfg.action = "release")
    (hrel : isReleaseBranch r.currentBranch cfg.releaseBranchRegex = true) :
    (getTagsAtHEAD r = [] → run cfg r = (r, .error .emptyHead)) ∧
    (getTagsAtHEAD r ≠ [] → (getTagsAtHEAD r).filter isPrereleaseTagB = [] →
      run cfg r = (r, .error .noCandidateAtHead)) ∧
    (1 < ((getTagsAtHEAD r).filter isPrereleaseTagB).length →
      run cfg r = (r, .error (.ambiguousCandidates (getTagsAtHEAD r)))) ∧
    (((getTagsAtHEAD r).filter isPrereleaseTagB).length = 1 →
      0 < ((getTagsAtHEAD r).filter isStableTagB).length →
      run cfg r = (r, .error (.alreadyReleased (getTagsAtHEAD r)))) := by
  have hguard : ¬((!(isReleaseBranch r.currentBranch cfg.releaseBranchRegex)) = true) := by
    rw [hrel]; simp
  refine ⟨fun h0 => ?_, fun hne hc0 => ?_, fun hc2 => ?_, fun hc1 hs => ?_⟩
  · rw [run_release_eq hact]
    unfold runRelease
    dsimp only
    rw [if_neg hguard, h0]
    rfl
  · rw [run_release_eq hact]
    unfold runRelease
    dsimp only
    rw [if_neg hguard, if_neg (by simp [hne]), hc0]
    rfl
  · rw [run_release_eq hact]
    unfold runRelease
    dsimp only
    have hne : getTagsAtHEAD r ≠ [] := by
      intro h
      rw [h] at hc2
      simp at hc2
    rw [if_neg hguard, if_neg (by simp [hne]), if_neg (by omega), if_pos hc2]
  · rw [run_release_eq hact]
    unfold runRelease
    dsimp only
    have hne : getTagsAtHEAD r ≠ [] := by
      intro h
      rw [h] at hc1
      simp at hc1
    rw [if_neg hguard, if_neg (by simp [hne]), if_neg (by omega), if_neg (by omega),
      if_pos hs]

/-- Claim C3 counterexample: a release branch whose HEAD carries exactly one
stable tag and no candidate.  The claim as stated demands AlreadyReleased
listing the stable tag names; the code fails the earlier candidate check and
reports NoCandidateAtHEAD instead. -/
theorem release_head_validation_counterexample :
    getTagsAtHEAD repoStableOnly = ["v1.0.0"] ∧
    isStableTagB "v1.0.0" = true ∧
    run cfgRelease repoStableOnly = (repoStableOnly, .error .noCandidateAtHead) ∧
    RunError.noCandidateAtHead ≠ .alreadyReleased ["v1.0.0"] := by
  refine ⟨by decide, by decide, by decide, by decide⟩

/-- Witness for the amended C3 theorem: all four validation failures at
concrete stores (note the ambiguous- and already-released payloads list every
tag at HEAD). -/
theorem release_head_validation_witness :
    run cfgRelease repoBareHead = (repoBareHead, .error .emptyHead) ∧
    run cfgRelease repoStableOnly = (repoStableOnly, .error .noCandidateAtHead) ∧
    run cfgRelease repoTwoCandidates
      = (repoTwoCandidates, .error (.ambiguousCandidates ["v1.0.1-rc.1", "v1.0.1-rc.2"])) ∧
    run cfgRelease repoCandidateAndStable
      = (repoCandidateAndStable, .error (.alreadyReleased ["v1.0.1", "v1.0.1-rc.1"])) := by
  refine ⟨?_, ?_, ?_, ?_⟩
  · exact (release_head_validation cfgRelease repoBareHead rfl (by decide)).1 (by decide)
  · exact (release_head_validation cfgRelease repoStableOnly rfl (by decide)).2.1
      (by decide) (by decide)
  · have h := (release_head_validation cfgRelease repoTwoCandidates rfl (by decide)).2.2.1
      (by decide)
    rw [show getTagsAtHEAD repoTwoCandidates = ["v1.0.1-rc.1", "v1.0.1-rc.2"] from by decide]
      at h
    exact h
  · have h := (release_head_validation cfgRelease repoCandidateAndStable rfl
      (by decide)).2.2.2 (by decide) (by decide)
    rw [show getTagsAtHEAD repoCandidateAndStable = ["v1.0.1", "v1.0.1-rc.1"] from by decide]
      at h
    exact h

/-- Claim C4, as amended: every successful release run has exactly one
candidate tag at HEAD; the created tag is the candidate version with its
prerelease cleared, bound to the same commit the candidate is bound to
(HEAD); nothing else in the store changes; `nextVersion` is the new tag
string; and `previousVersion` is the CANONICAL RENDERING of the candidate tag
(equal to the raw tag name only when that is already in canonical
`v`-prefixed, build-free form). -/
theorem release_success_shape (cfg : Config) (r r2 : Repo) (outs : Outputs)
    (hact : cfg.action = "release")
    (hnd : (r.tags.map Prod.fst).Nodup)
    (hrun : run cfg r = (r2, .ok outs)) :
    ∃ t v, (getTagsAtHEAD r).filter isPrereleaseTagB = [t] ∧
      SemanticVersion.parse t = some v ∧
      (t, r.headCommit) ∈ r.tags ∧
      outs.previousVersion = v.toString ∧
      outs.nextVersion = v.makeRelease.toString ∧
      r2.tags = r.tags ++ [(outs.nextVersion, r.headCommit)] ∧
      r2.branches = r.branches ∧ r2.commits = r.commits ∧ r2.ancestry = r.ancestry ∧
      r2.currentBranch = r.currentBranch ∧ r2.headCommit = r.headCommit := by
  rw [run_release_eq hact] at hrun
  unfold runRelease at hrun
  dsimp only at hrun
  split at hrun
  · exact absurd hrun (by simp)
  split at hrun
  · exact absurd hrun (by simp)
  split at hrun
  · exact absurd hrun (by simp)
  rename_i hc0
  split at hrun
  · exact absurd hrun (by simp)
  rename_i hc1
  split at hrun
  · exact absurd hrun (by simp)
  split at hrun
  · exact absurd hrun (by simp)
  rename_i t0 hhead
  split at hrun
  · exact absurd hrun (by simp)
  rename_i version hparse
  split at hrun
  · exact absurd hrun (by simp)
  rename_i r1 u hmake
  rw [Prod.mk.injEq] at hrun
  obtain ⟨hr12, ho⟩ := hrun
  injection ho with ho2
  have hlen : ((getTagsAtHEAD r).filter isPrereleaseTagB).length = 1 := by omega
  obtain ⟨t, ht⟩ := List.length_eq_one.mp hlen
  have ht0 : t = t0 := by
    rw [ht] at hhead
    exact Option.some.inj hhead
  subst ht0
  have hmemf : t ∈ (getTagsAtHEAD r).filter isPrereleaseTagB := by
    rw [ht]; exact List.mem_cons_self t []
  have hmem : (t, r.headCommit) ∈ r.tags :=
    mem_getTagsAtHEAD (List.mem_of_mem_filter hmemf)
  have halk : alookup r.tags t = some r.headCommit := alookup_eq_of_mem_nodup hmem hnd
  have hck : gitCheckoutTag r t = (r, .ok ()) := by
    unfold gitCheckoutTag
    rw [halk]
  unfold makeRelease at hmake
  rw [hck] at hmake
  dsimp only at hmake
  unfold gitTag at hmake
  split at hmake
  · exact absurd hmake (by simp)
  rw [Prod.mk.injEq] at hmake
  obtain ⟨hr1, _⟩ := hmake
  refine ⟨t, version, ht, hparse, hmem, ?_, ?_, ?_, ?_, ?_, ?_, ?_, ?_⟩
  · rw [← ho2]
  · rw [← ho2]
  · rw [← hr12, ← hr1, ← ho2]
  · rw [← hr12, ← hr1]
  · rw [← hr12, ← hr1]
  · rw [← hr12, ← hr1]
  · rw [← hr12, ← hr1]
  · rw [← hr12, ← hr1]

/-- Claim C4 counterexample: a successful release whose sole candidate tag is
`1.0.1-rc.1` (no `v` prefix).  The reported previousVersion is the canonical
rendering `v1.0.1-rc.1`, not the candidate tag string itself as the claim
states. -/
theorem release_previousVersion_counterexample :
    (getTagsAtHEAD repoUnprefixed).filter isPrereleaseTagB = ["1.0.1-rc.1"] ∧
    (run cfgRelease repoUnprefixed).2
      = .ok { nextVersion := "v1.0.1", previousVersion := "v1.0.1-rc.1",
              previousStableVersion := "" } ∧
    ("v1.0.1-rc.1" : String) ≠ "1.0.1-rc.1" := by
  refine ⟨by decide, by decide, by decide⟩

/-- Witness for the amended C4 theorem at a concrete successful release. -/
theorem release_success_shape_witness :
    ∃ t v, (getTagsAtHEAD repoReleaseOK).filter isPrereleaseTagB = [t] ∧
      SemanticVersion.parse t = some v ∧
      (t, repoReleaseOK.headCommit) ∈ repoReleaseOK.tags ∧
      outsReleaseOK.previousVersion = v.toString ∧
      outsReleaseOK.nextVersion = v.makeRelease.toString ∧
      repoReleaseOK2.tags
        = repoReleaseOK.tags ++ [(outsReleaseOK.nextVersion, repoReleaseOK.headCommit)] ∧
      repoReleaseOK2.branches = repoReleaseOK.branches ∧
      repoReleaseOK2.commits = repoReleaseOK.commits ∧
      repoReleaseOK2.ancestry = repoReleaseOK.ancestry ∧
      repoReleaseOK2.currentBranch = repoReleaseOK.currentBranch ∧
      repoReleaseOK2.headCommit = repoReleaseOK.headCommit :=
  release_success_shape cfgRelease repoReleaseOK repoReleaseOK2 outsReleaseOK rfl
    (by decide) (by decide)

theorem releaseCutReference_no_tag {r : Repo}
    (hlt : getLatestTag r r.currentBranch = "") :
    releaseCutReference r =
      (if (getCommitMessages r r.firstCommit r.headCommit).isEmpty then
        .error .noCommitsAtAll
      else .ok (⟨0, 0, 0, Option.none⟩, getCommitMessages r r.firstCommit r.headCommit, "")) := by
  unfold releaseCutReference
  dsimp only
  rw [if_neg (by simp [hlt])]

theorem releaseCutReference_with_tag {r : Repo} {v : SemanticVersion} {cFrom : Nat}
    (hne : getLatestTag r r.currentBranch ≠ "")
    (hp : SemanticVersion.parse (getLatestTag r r.currentBranch) = some v)
    (hres : resolveRef r (getLatestTag r r.currentBranch) = some cFrom) :
    releaseCutReference r =
      (if (getCommitMessages r cFrom r.headCommit).isEmpty then
        .error (.noCommitsSinceTag (getLatestTag r r.currentBranch))
      else .ok (v, getCommitMessages r cFrom r.headCommit, v.toString)) := by
  unfold releaseCutReference
  dsimp only
  rw [if_pos hne, hp]
  dsimp only
  rw [hres]

/-- Inverting a successful release-cut run: the reference stage and the bump
stage succeeded, and the outputs carry the reference previousVersion and the
bumped version. -/
theorem runReleaseCut_success_inv {cfg : Config} {r r2 : Repo} {outs : Outputs}
    (hrun : runReleaseCut cfg r = (r2, .ok outs)) :
    ∃ v msgs prev v2, releaseCutReference r = .ok (v, msgs, prev) ∧
      releaseCutBump cfg r.currentBranch (getLatestTag r r.currentBranch) v
        (releaseTypeFromCommitMessages msgs) = .ok v2 ∧
      outs.previousVersion = prev ∧ outs.nextVersion = v2.toString := by
  unfold runReleaseCut at hrun
  dsimp only at hrun
  split at hrun
  · exact absurd hrun (by simp)
  split at hrun
  · exact absurd hrun (by simp)
  rename_i v msgs prev href
  split at hrun
  · exact absurd hrun (by simp)
  rename_i v2 hbump
  split at hrun
  · exact absurd hrun (by simp)
  rename_i r1 u hstep
  rw [Prod.mk.injEq] at hrun
  obtain ⟨hr12, ho⟩ := hrun
  injection ho with ho2
  exact ⟨v, msgs, prev, v2, href, hbump, by rw [← ho2], by rw [← ho2]⟩

/-- Claim C5: the release-cut reference is the latest tag reachable from the
current branch (the error and the reported previousVersion are derived from
it); with no tag reachable, v0.0.0 is synthesized, messages are collected
from the branch's first commit and previousVersion is reported empty; and in
either case an empty collected message list fails with the respective
no-commits HistoryError. -/
theorem releaseCut_reference_spec (cfg : Config) (r : Repo)
    (hact : cfg.action = "release-cut")
    (hcls : r.currentBranch = cfg.trunkBranchName ∨
      isReleaseBranch r.currentBranch cfg.releaseBranchRegex = true) :
    (∀ v : SemanticVersion, getLatestTag r r.currentBranch ≠ "" →
      SemanticVersion.parse (getLatestTag r r.currentBranch) = some v →
      ∀ cFrom : Nat, resolveRef r (getLatestTag r r.currentBranch) = some cFrom →
      getCommitMessages r cFrom r.headCommit = [] →
      run cfg r = (r, .error (.noCommitsSinceTag (getLatestTag r r.currentBranch)))) ∧
    (getLatestTag r r.currentBranch = "" →
      getCommitMessages r r.firstCommit r.headCommit = [] →
      run cfg r = (r, .error .noCommitsAtAll)) ∧
    (getLatestTag r r.currentBranch = "" →
      ∀ (r2 : Repo) (outs : Outputs), run cfg r = (r2, .ok outs) →
      outs.previousVersion = "" ∧
      outs.nextVersion = (match releaseTypeFromCommitMessages
          (getCommitMessages r r.firstCommit r.headCommit) with
        | RELEASE_TYPES.patch => SemanticVersion.bumpPatch ⟨0, 0, 0, Option.none⟩
        | RELEASE_TYPES.minor => SemanticVersion.bumpMinor ⟨0, 0, 0, Option.none⟩
        | RELEASE_TYPES.major => SemanticVersion.bumpMajor ⟨0, 0, 0, Option.none⟩
        | RELEASE_TYPES.none => ⟨0, 0, 0, Option.none⟩).toString) ∧
    (∀ v : SemanticVersion,
      SemanticVersion.parse (getLatestTag r r.currentBranch) = some v →
      ∀ (r2 : Repo) (outs : Outputs), run cfg r = (r2, .ok outs) →
      outs.previousVersion = v.toString) := by
  have hguard : ¬(r.currentBranch ≠ cfg.trunkBranchName ∧
      ((!(isReleaseBranch r.currentBranch cfg.releaseBranchRegex)) = true)) := by
    rcases hcls with h | h
    · intro hc; exact hc.1 h
    · intro hc; rw [h] at hc; simp at hc
  refine ⟨fun v hne hp cFrom hres hmsgs => ?_, fun hlt hmsgs => ?_,
    fun hlt r2 outs hrun => ?_, fun v hp r2 outs hrun => ?_⟩
  · have href : releaseCutReference r
        = .error (.noCommitsSinceTag (getLatestTag r r.currentBranch)) := by
      rw [releaseCutReference_with_tag hne hp hres, if_pos (by simp [hmsgs])]
    rw [run_releaseCut_eq hact]
    unfold runReleaseCut
    dsimp only
    rw [if_neg hguard, href]
  · have href : releaseCutReference r = .error .noCommitsAtAll := by
      rw [releaseCutReference_no_tag hlt, if_pos (by simp [hmsgs])]
    rw [run_releaseCut_eq hact]
    unfold runReleaseCut
    dsimp only
    rw [if_neg hguard, href]
  · rw [run_releaseCut_eq hact] at hrun
    obtain ⟨v1, msgs, prev, v2, href, hbump, hprev, hnext⟩ := runReleaseCut_success_inv hrun
    have hmsgsne : ¬(getCommitMessages r r.firstCommit r.headCommit).isEmpty = true := by
      intro hemp
      rw [releaseCutReference_no_tag hlt, if_pos hemp] at href
      exact absurd href (by simp)
    rw [releaseCutReference_no_tag hlt, if_neg hmsgsne] at href
    injection href with htriple
    simp only [Prod.mk.injEq] at htriple
    obtain ⟨hv, hm, hpr⟩ := htriple
    constructor
    · rw [hprev, ← hpr]
    · rw [hnext]
      rw [← hm, ← hv] at hbump
      cases hrt : releaseTypeFromCommitMessages
          (getCommitMessages r r.firstCommit r.headCommit) with
      | none =>
          rw [hrt] at hbump
          exact absurd hbump (by simp [releaseCutBump])
      | patch =>
          rw [hrt] at hbump
          unfold releaseCutBump at hbump
          dsimp only at hbump
          split at hbump
          · exact absurd hbump (by simp)
          · injection hbump with hv2
            rw [← hv2]
      | minor =>
          rw [hrt] at hbump
          unfold releaseCutBump at hbump
          dsimp only at hbump
          split at hbump
          · exact absurd hbump (by simp)
          · injection hbump with hv2
            rw [← hv2]
      | major =>
          rw [hrt] at hbump
          unfold releaseCutBump at hbump
          dsimp only at hbump
          split at hbump
          · exact absurd hbump (by simp)
          · injection hbump with hv2
            rw [← hv2]
  · have hne : getLatestTag r r.currentBranch ≠ "" := by
      intro h
      rw [h] at hp
      rw [show SemanticVersion.parse "" = Option.none from by decide] at hp
      exact absurd hp (by simp)
    rw [run_releaseCut_eq hact] at hrun
    obtain ⟨v1, msgs, prev, v2, href, hbump, hprev, hnext⟩ := runReleaseCut_success_inv hrun
    cases hres : resolveRef r (getLatestTag r r.currentBranch) with
    | none =>
        have hrerr : releaseCutReference r
            = .error (.refNotFound (getLatestTag r r.currentBranch)) := by
          unfold releaseCutReference
          dsimp only
          rw [if_pos hne, hp]
          dsimp only
          rw [hres]
        rw [hrerr] at href
        exact absurd href (by simp)
    | some cFrom =>
        by_cases hemp : (getCommitMessages r cFrom r.headCommit).isEmpty = true
        · rw [releaseCutReference_with_tag hne hp hres, if_pos hemp] at href
          exact absurd href (by simp)
        · rw [releaseCutReference_with_tag hne hp hres, if_neg hemp] at href
          injection href with htriple
          simp only [Prod.mk.injEq] at htriple
          obtain ⟨hv, hm, hpr⟩ := htriple
          rw [hprev, ← hpr]

/-- Witness for C5: all four clauses at concrete stores. -/
theorem releaseCut_reference_spec_witness :
    (run cfgReleaseCut repoNoCommits
      = (repoNoCommits, .error (.noCommitsSinceTag (getLatestTag repoNoCommits
          repoNoCommits.currentBranch)))) ∧
    run cfgReleaseCut repoEmptyHistory = (repoEmptyHistory, .error .noCommitsAtAll) ∧
    (outsNoTags.previousVersion = "" ∧
      outsNoTags.nextVersion = (match releaseTypeFromCommitMessages
          (getCommitMessages repoNoTags repoNoTags.firstCommit repoNoTags.headCommit) with
        | RELEASE_TYPES.patch => SemanticVersion.bumpPatch ⟨0, 0, 0, Option.none⟩
        | RELEASE_TYPES.minor => SemanticVersion.bumpMinor ⟨0, 0, 0, Option.none⟩
        | RELEASE_TYPES.major => SemanticVersion.bumpMajor ⟨0, 0, 0, Option.none⟩
        | RELEASE_TYPES.none => ⟨0, 0, 0, Option.none⟩).toString) ∧
    outsTrunkMinorTagged.previousVersion
      = (SemanticVersion.mk 1 0 0 Option.none).toString := by
  refine ⟨?_, ?_, ?_, ?_⟩
  · exact (releaseCut_reference_spec cfgReleaseCut repoNoCommits rfl (Or.inl rfl)).1
      ⟨1, 0, 0, Option.none⟩ (by decide) (by decide) 0 (by decide) (by decide)
  · exact (releaseCut_reference_spec cfgReleaseCut repoEmptyHistory rfl (Or.inl rfl)).2.1
      (by decide) (by decide)
  · exact (releaseCut_reference_spec cfgReleaseCut repoNoTags rfl (Or.inl rfl)).2.2.1
      (by decide) repoNoTags2 outsNoTags (by decide)
  · exact (releaseCut_reference_spec cfgReleaseCut repoTrunkMinorTagged rfl
      (Or.inl rfl)).2.2.2 ⟨1, 0, 0, Option.none⟩ (by decide) repoTrunkMinorTagged2
      outsTrunkMinorTagged (by decide)

end SBR
